import Mathlib

/-!
# The app-json plugin triggers (plugins/app-json/triggers.go)

A shallow embedding of the triggers of dokku's `app-json` plugin and the
properties its specification states about them.

* The filesystem is a finite table from path strings to file contents. Paths
  are taken literally (no symbolic links, no two spellings of one file), only
  regular files are recorded, a directory is there when a file lies below it,
  and a file can be written wherever no directory is in its place.
* `filepath.Match` and `filepath.Glob` follow Go's match.go: character classes,
  escapes, `ErrBadPattern`, and the search directory by directory.
* Every fallible call (remove, rename, copy, touch, read, the property store
  and the collaborators) may fail: an oracle of the environment says which
  calls do. A failing call leaves the state as it found it.
* The triggers return the state they leave behind together with the Go `error`
  (`none` is `nil`), so what a failing trigger has already done stays visible.
-/

namespace appjson

/-! ## Strings and paths (Go `strings`, `path`, `path/filepath`) -/

/-- Go `strings.Trim(s, cutset)`: `s` without the leading and trailing
characters that occur in `cutset`. -/
def strings.Trim (s cutset : String) : String :=
  String.mk (((s.toList.dropWhile (fun c => decide (c ∈ cutset.toList))).reverse.dropWhile
    (fun c => decide (c ∈ cutset.toList))).reverse)

/-- Go `unicode.IsSpace`: the white space characters of Unicode. -/
def unicode.IsSpace (c : Char) : Bool :=
  let n := c.toNat
  n == 0x09 || n == 0x0A || n == 0x0B || n == 0x0C || n == 0x0D || n == 0x20 ||
  n == 0x85 || n == 0xA0 || n == 0x1680 || (0x2000 ≤ n && n ≤ 0x200A) ||
  n == 0x2028 || n == 0x2029 || n == 0x202F || n == 0x205F || n == 0x3000

/-- Go `strings.TrimSpace(s)`: `s` without leading and trailing white space. -/
def strings.TrimSpace (s : String) : String :=
  String.mk (((s.toList.dropWhile unicode.IsSpace).reverse.dropWhile unicode.IsSpace).reverse)

/-- The pieces of a character sequence between the occurrences of `sep`
(Go `strings.Split` for a one-character separator). -/
def splitOnChar (sep : Char) : List Char → List (List Char)
  | [] => [[]]
  | c :: cs =>
    if c = sep then [] :: splitOnChar sep cs
    else
      match splitOnChar sep cs with
      | [] => [[c]]
      | h :: t => (c :: h) :: t

/-- Go `strings.Split(s, sep)` for a one-character separator. -/
def strings.Split (s : String) (sep : Char) : List String :=
  (splitOnChar sep s.toList).map String.mk

/-- The elements joined with single slashes. -/
def joinSlash : List (List Char) → List Char
  | [] => []
  | [x] => x
  | x :: y :: rest => x ++ '/' :: joinSlash (y :: rest)

/-- One element of the path read by `path.Clean`; `stack` holds the elements
kept so far, the last one first. Empty and `.` elements are dropped, `..`
removes the element before it when there is one to remove, is dropped at the
root and is kept at the front of a relative path. -/
def cleanStep (rooted : Bool) (stack : List (List Char)) (el : List Char) : List (List Char) :=
  if el = [] ∨ el = ['.'] then stack
  else if el = ['.', '.'] then
    match stack with
    | [] => if rooted then [] else [el]
    | top :: rest => if top = ['.', '.'] then el :: stack else rest
  else el :: stack

/-- Go `path.Clean`, element by element: the shortest path naming the same
file by purely lexical processing. -/
def path.Clean (p : String) : String :=
  if p = "" then "."
  else
    let rooted := p.toList.head? = some '/'
    let stack := (splitOnChar '/' p.toList).foldl (cleanStep rooted) []
    let body := joinSlash stack.reverse
    if rooted then String.mk ('/' :: body)
    else if body = [] then "."
    else String.mk body

/-- The non-empty elements written one after the other with a slash between. -/
def joinNonEmpty : List String → String
  | [] => ""
  | e :: rest =>
    if e = "" then joinNonEmpty rest
    else if joinNonEmpty rest = "" then e
    else e ++ "/" ++ joinNonEmpty rest

/-- Go `path.Join(elem...)`: empty elements are ignored, the others are joined
with slashes and the result is cleaned; all elements empty gives the empty
string. -/
def path.Join (elem : List String) : String :=
  if joinNonEmpty elem = "" then "" else path.Clean (joinNonEmpty elem)

/-- The directory part of a path as Go `Split` gives it: everything up to and
including the last slash. -/
def dirOf : List Char → List Char
  | [] => []
  | c :: cs => if '/' ∈ cs then c :: dirOf cs else if c = '/' then [c] else []

/-- Go `filepath.Split`: the directory part of the path, with its slash, and
the file name after it. -/
def filepath.Split (p : String) : String × String :=
  (String.mk (dirOf p.toList), String.mk (p.toList.drop (dirOf p.toList).length))

/-! ## Patterns (Go `path/filepath`, match.go)

The text is read character by character, as Go reads valid UTF-8. -/

/-- Go `filepath.ErrBadPattern`. -/
def ErrBadPattern : String := "syntax error in pattern"

/-- The escape character of Go's pattern language, the backslash. -/
def backslash : Char := Char.ofNat 92

/-- Go `getEsc`: a character of a character class, possibly escaped, and the
chunk after it; an error at the end of the chunk, at `-` and at `]`, and when
nothing follows the character. -/
def getEsc (chunk : List Char) : Except String (Char × List Char) :=
  match chunk with
  | [] => .error ErrBadPattern
  | c :: cs =>
    if c = '-' ∨ c = ']' then .error ErrBadPattern
    else if c = backslash then
      match cs with
      | [] => .error ErrBadPattern
      | r :: rest => if rest = [] then .error ErrBadPattern else .ok (r, rest)
    else if cs = [] then .error ErrBadPattern
    else .ok (c, cs)

/-- The loop `for` of `matchChunk` over the ranges of a character class, up to
the closing bracket: whether `r` lies in one of them, and the chunk after the
class. Every round takes a character of the chunk; `fuel` counts them. -/
def classRanges : Nat → Char → Nat → Bool → List Char → Except String (Bool × List Char)
  | 0, _, _, _, _ => .error ErrBadPattern
  | fuel + 1, r, nrange, matched, chunk =>
    if chunk.head? = some ']' ∧ nrange > 0 then .ok (matched, chunk.tail)
    else
      match getEsc chunk with
      | .error e => .error e
      | .ok (lo, chunk1) =>
        if chunk1.head? = some '-' then
          match getEsc chunk1.tail with
          | .error e => .error e
          | .ok (hi, chunk2) =>
            classRanges fuel r (nrange + 1)
              (matched || (decide (lo.toNat ≤ r.toNat) && decide (r.toNat ≤ hi.toNat))) chunk2
        else
          classRanges fuel r (nrange + 1)
            (matched || (decide (lo.toNat ≤ r.toNat) && decide (r.toNat ≤ lo.toNat))) chunk1

/-- The loop of Go `matchChunk`: `failed` records that the match has failed,
after which the chunk is still read to the end for its syntax. The result is
the rest of `s` after the match, `none` when the chunk does not match.
Every round takes a character of the chunk; `fuel` counts them. -/
def matchChunkLoop : Nat → Bool → List Char → List Char → Except String (Option (List Char))
  | _, failed, [], s => .ok (if failed then none else some s)
  | 0, _, _ :: _, _ => .error ErrBadPattern
  | fuel + 1, failed0, c :: chunk, s =>
    let failed := failed0 || s.isEmpty
    if c = '[' then
      let r := if failed then Char.ofNat 0 else s.headD (Char.ofNat 0)
      let s1 := if failed then s else s.tail
      let negated := decide (chunk.head? = some '^')
      let chunk1 := if negated then chunk.tail else chunk
      match classRanges (chunk1.length + 1) r 0 false chunk1 with
      | .error e => .error e
      | .ok (matched, chunk2) => matchChunkLoop fuel (failed || (matched == negated)) chunk2 s1
    else if c = '?' then
      matchChunkLoop fuel (failed || decide (s.head? = some '/')) chunk (if failed then s else s.tail)
    else if c = backslash then
      match chunk with
      | [] => .error ErrBadPattern
      | d :: chunk1 =>
        matchChunkLoop fuel (failed || decide (s.head? ≠ some d)) chunk1 (if failed then s else s.tail)
    else
      matchChunkLoop fuel (failed || decide (s.head? ≠ some c)) chunk (if failed then s else s.tail)

/-- Go `matchChunk`: whether the chunk matches the beginning of `s`, and the
rest of `s` after the match. -/
def matchChunk (chunk s : List Char) : Except String (Option (List Char)) :=
  matchChunkLoop chunk.length false chunk s

/-- The loop `Scan` of Go `scanChunk`: the pattern up to its first `*` outside
a character class, and the rest. -/
def scanSplit (inrange : Bool) : List Char → List Char × List Char
  | [] => ([], [])
  | c :: cs =>
    if c = backslash then
      match cs with
      | [] => ([c], [])
      | d :: ds => (c :: d :: (scanSplit inrange ds).1, (scanSplit inrange ds).2)
    else if c = '[' then (c :: (scanSplit true cs).1, (scanSplit true cs).2)
    else if c = ']' then (c :: (scanSplit false cs).1, (scanSplit false cs).2)
    else if c = '*' ∧ inrange = false then ([], c :: cs)
    else (c :: (scanSplit inrange cs).1, (scanSplit inrange cs).2)

/-- Go `scanChunk`: whether the pattern starts with stars, the chunk after
them up to the next star, and the rest of the pattern. -/
def scanChunk (pattern : List Char) : Bool × List Char × List Char :=
  (decide (pattern.head? = some '*'),
    (scanSplit false (pattern.dropWhile (fun c => c = '*'))).1,
    (scanSplit false (pattern.dropWhile (fun c => c = '*'))).2)

/-- The last loop of Go `Match`, run before it answers `false`: the rest of
the pattern is read for its syntax. -/
def checkRest : Nat → List Char → Except String Bool
  | _, [] => .ok false
  | 0, _ :: _ => .error ErrBadPattern
  | fuel + 1, pattern =>
    match matchChunk (scanChunk pattern).2.1 [] with
    | .error e => .error e
    | .ok _ => checkRest fuel (scanChunk pattern).2.2

/-- The loop of Go `Match` after a star: the chunk is tried after each
character of the name up to the first separator; `next` is the match of the
rest of the pattern, `last` says that there is no such rest. -/
def starLoop (next : List Char → Except String Bool) (giveUp : Except String Bool)
    (chunk : List Char) (last : Bool) : List Char → Except String Bool
  | [] => giveUp
  | c :: cs =>
    if c = '/' then giveUp
    else
      match matchChunk chunk cs with
      | .error e => .error e
      | .ok (some t) => if last ∧ t ≠ [] then starLoop next giveUp chunk last cs else next t
      | .ok none => starLoop next giveUp chunk last cs

/-- The loop `Pattern` of Go `Match`. Every round takes a character of the
pattern; `fuel` counts them. -/
def matchLoop : Nat → List Char → List Char → Except String Bool
  | _, [], name => .ok name.isEmpty
  | 0, _ :: _, _ => .error ErrBadPattern
  | fuel + 1, pattern, name =>
    let star := (scanChunk pattern).1
    let chunk := (scanChunk pattern).2.1
    let rest := (scanChunk pattern).2.2
    if star = true ∧ chunk = [] then .ok (!name.contains '/')
    else
      match matchChunk chunk name with
      | .error e => .error e
      | .ok r =>
        if r.isSome ∧ (r = some [] ∨ rest ≠ []) then matchLoop fuel rest (r.getD [])
        else if star then
          starLoop (matchLoop fuel rest) (checkRest rest.length rest) chunk (decide (rest = [])) name
        else checkRest rest.length rest

/-- Go `filepath.Match(pattern, name)`. -/
def filepath.Match (pattern name : String) : Except String Bool :=
  matchLoop pattern.length pattern.toList name.toList

/-- Go `hasMeta`: the path holds one of the characters `*`, `?`, `[` and
backslash that the pattern language gives a meaning. -/
def hasMeta (p : String) : Bool :=
  p.toList.any (fun c => c = '*' ∨ c = '?' ∨ c = '[' ∨ c = backslash)

/-- Go `cleanGlobPath`: the directory part of a pattern without its trailing
slash, `.` for the empty one. -/
def cleanGlobPath (p : String) : String :=
  if p = "" then "."
  else if p = "/" then p
  else String.mk p.toList.dropLast

/-- Lexicographic order of character sequences by code point, the order of
Go's `sort.Strings` on UTF-8 text. -/
def lexLE : List Char → List Char → Bool
  | [], _ => true
  | _ :: _, [] => false
  | a :: as, b :: bs => a.toNat < b.toNat || (a == b && lexLE as bs)

/-! ## The filesystem -/

/-- The regular files of the host: path and content. Of two entries with one
path the first is the file. -/
structure FS where
  entries : List (String × String)
deriving DecidableEq, Repr

/-- The content of the regular file at `p`, `none` when there is none. -/
def FS.read (fs : FS) (p : String) : Option String :=
  (fs.entries.find? (fun e => e.1 = p)).map Prod.snd

/-- Some file lies below `p`: `p` is a directory that is not empty. -/
def FS.isDir (fs : FS) (p : String) : Bool :=
  fs.entries.any (fun e => (p.toList ++ ['/']).isPrefixOf e.1.toList)

/-- The start of the paths of the files in or below a directory: the directory
and a slash, nothing for `.`, the slash alone for the root. -/
def dirBase (dir : String) : List Char :=
  if dir = "." then [] else if dir = "/" then ['/'] else dir.toList ++ ['/']

/-- The name of the entry of a directory that is or holds the file at `k`,
`none` when the file is not in or below the directory. -/
def entryName (base k : List Char) : Option (List Char) :=
  if base.isPrefixOf k then some ((k.drop base.length).takeWhile (fun c => c ≠ '/')) else none

/-- Go `Readdirnames` followed by `slices.Sort`, as `glob` calls them: the
names of the files and directories in a directory, sorted; none for a path
that is no directory. -/
def FS.readdir (fs : FS) (dir : String) : List String :=
  ((((fs.entries.filterMap (fun e => entryName (dirBase dir) e.1.toList)).filter
    (fun n => n ≠ [] ∧ n ≠ ['.'] ∧ n ≠ ['.', '.'])).map String.mk).dedup).insertionSort
      (fun a b => lexLE a.toList b.toList = true)

/-- The filesystem without the file at `p`. -/
def FS.remove (fs : FS) (p : String) : FS :=
  ⟨fs.entries.filter (fun e => e.1 ≠ p)⟩

/-- The filesystem with content `c` at `p`, replacing what was there. -/
def FS.write (fs : FS) (p c : String) : FS :=
  ⟨(p, c) :: (fs.remove p).entries⟩

/-- The fallible calls of the triggers; the environment's oracle is asked
about each. -/
inductive Op where
  | remove (p : String)
  | rename (src dst : String)
  | copy (src dst : String)
  | touch (p : String)
  | readFile (p : String)
  | copyFromImage (app image src dst : String)
  | propertyWrite (plugin app key : String)
  | propertyClone (plugin old new : String)
  | propertyDestroy (plugin app : String)
  | cloneAppData (plugin old new : String)
deriving DecidableEq, Repr

deriving instance DecidableEq for Except

/-- What a trigger leaves behind: the filesystem and the Go error. -/
structure Result where
  fs : FS
  err : Option String
deriving DecidableEq, Repr

/-- The field `Formation` of a parsed app.json maps a process type to one of
these; `none` is Go's nil pointer. -/
structure Formation where
  Quantity : Option Int
  MaxParallel : Option Int
deriving DecidableEq, Repr

/-- The parsed app.json document, as far as the triggers read it. The Go map
`Formation` is the list of its entries in the order the `range` loop visits
them; a Go map holds a key once. -/
structure AppJSON where
  Formation : List (String × Formation)
deriving DecidableEq, Repr

/-- What a printing trigger leaves behind: standard output and the Go error. -/
structure Output where
  stdout : String
  err : Option String
deriving DecidableEq, Repr

/-- The surroundings of one trigger invocation: the process environment, the
answers of the collaborators that are not part of the plugin, and the oracle
of failing calls. -/
structure Env where
  /-- The value of `os.Getenv("DOKKU_PID")`. -/
  DOKKU_PID : String
  /-- The function `common.GetAppDataDirectory`: the data directory a plugin
  keeps for an app. -/
  GetAppDataDirectory : String → String → String
  /-- The function `common.GetProcessSpecificAppJSONPath`. -/
  GetProcessSpecificAppJSONPath : FS → String → String
  /-- The function `common.HasAppJSON`. -/
  HasAppJSON : FS → String → Bool
  /-- The function `GetAppJSON`: the parsed document of an app, or the error. -/
  GetAppJSON : String → Except String AppJSON
  /-- The function `reportComputedAppjsonpath`: the configured document path. -/
  reportComputedAppjsonpath : String → String
  /-- Standard output of the `git-get-property <app> source-image` trigger. -/
  sourceImage : String → String
  /-- Standard output of the `builder-get-property <app> build-dir` trigger. -/
  buildDir : String → String
  /-- The file an image holds at a path, for `common.CopyFromImage`: `none`
  when the image has no such file or cannot be read. -/
  imageFile : String → String → String → Option String
  /-- The error returned by `executeScript(app, image, tag, phase)`, `none`
  for `nil`. -/
  scriptError : String → String → String → String → Option String
  /-- The error returned by `setScale(app, image)`, `none` for `nil`. -/
  scaleError : String → String → Option String
  /-- The calls that fail for a reason outside the model. -/
  fault : Op → Bool

/-- Modelled from the spec: `common.GetAppJSONPath` (plugins/common is not
among the sources), "canonical document at a fixed path per application" in
"the filesystem area holding staged/committed documents": the file `app.json`
in the data directory the plugin keeps for the app. -/
def common.GetAppJSONPath (env : Env) (appName : String) : String :=
  path.Join [env.GetAppDataDirectory "app-json" appName, "app.json"]

/-- Modelled from the spec: `common.FileExists` (plugins/common is not among
the sources), "check whether the resolved source-tree path exists": a regular
file is recorded at the path. -/
def common.FileExists (fs : FS) (p : String) : Bool :=
  (fs.read p).isSome

/-- Go `os.Remove`: removes the file; an error when there is none or when the
path is a directory that is not empty. -/
def os.Remove (env : Env) (fs : FS) (p : String) : Except String FS :=
  if env.fault (.remove p) then .error ("remove " ++ p ++ ": input/output error")
  else if fs.isDir p then .error ("remove " ++ p ++ ": directory not empty")
  else if common.FileExists fs p then .ok (fs.remove p)
  else .error ("remove " ++ p ++ ": no such file or directory")

/-- Go `os.Rename`: moves the file at `src` to `dst`, replacing a file at
`dst`; an error when `src` does not exist or `dst` is a directory. -/
def os.Rename (env : Env) (fs : FS) (src dst : String) : Except String FS :=
  if env.fault (.rename src dst) then .error ("rename " ++ src ++ " " ++ dst ++ ": input/output error")
  else if fs.isDir dst then .error ("rename " ++ src ++ " " ++ dst ++ ": file exists")
  else
    match fs.read src with
    | none => .error ("rename " ++ src ++ " " ++ dst ++ ": no such file or directory")
    | some c => if src = dst then .ok fs else .ok ((fs.remove src).write dst c)

/-- Go `os.ReadFile`: the content of the file; an error when there is none or
when the path is a directory. -/
def os.ReadFile (env : Env) (fs : FS) (p : String) : Except String String :=
  if env.fault (.readFile p) then .error ("open " ++ p ++ ": input/output error")
  else if fs.isDir p then .error ("read " ++ p ++ ": is a directory")
  else
    match fs.read p with
    | none => .error ("open " ++ p ++ ": no such file or directory")
    | some c => .ok c

/-- Modelled from the spec: `common.TouchFile` (plugins/common is not among
the sources), "write a missing-marker": an empty file is created at the path;
a file already there keeps its content, a directory there is an error. -/
def common.TouchFile (env : Env) (fs : FS) (p : String) : Except String FS :=
  if env.fault (.touch p) then .error ("touch " ++ p ++ ": input/output error")
  else if fs.isDir p then .error ("open " ++ p ++ ": is a directory")
  else if common.FileExists fs p then .ok fs
  else .ok (fs.write p "")

/-- Modelled from the spec: `common.Copy` (plugins/common is not among the
sources), "Copy(srcPath, dstPath) -> error": the file at `dst` gets the
content of the file at `src`; an error when `src` is no file or `dst` is a
directory. -/
def common.Copy (env : Env) (fs : FS) (src dst : String) : Except String FS :=
  if env.fault (.copy src dst) then .error ("copy " ++ src ++ " " ++ dst ++ ": input/output error")
  else if fs.isDir dst then .error ("open " ++ dst ++ ": is a directory")
  else
    match fs.read src with
    | none => .error ("open " ++ src ++ ": no such file or directory")
    | some c => .ok (fs.write dst c)

/-- Modelled from the spec: `common.CopyFromImage` (plugins/common is not
among the sources), "CopyFromImage(app, image, inPath, outPath) -> error":
the file at `dst` gets the content the image holds at `src`; an error when
the image holds none or `dst` is a directory. -/
def common.CopyFromImage (env : Env) (fs : FS) (app image src dst : String) : Except String FS :=
  if env.fault (.copyFromImage app image src dst) then .error "copy from image: input/output error"
  else if fs.isDir dst then .error ("open " ++ dst ++ ": is a directory")
  else
    match env.imageFile app image src with
    | none => .error ("Unable to copy " ++ src ++ " from image")
    | some c => .ok (fs.write dst c)

/-- The loop of Go `glob` over the sorted names of a directory: the matches so
far and then the names that match the pattern, each joined to the directory;
the error of a malformed pattern stops it. -/
def globNames (dir pattern : String) : List String → List String → Except String (List String)
  | [], found => .ok found
  | n :: names, found =>
    match filepath.Match pattern n with
    | .error e => .error e
    | .ok matched =>
      globNames dir pattern names (if matched then found ++ [path.Join [dir, n]] else found)

/-- Go `glob(dir, pattern, matches)`: the matches so far and then the entries
of the directory that match the pattern; a path that is no directory adds
none. -/
def filepath.glob (fs : FS) (dir pattern : String) (found : List String) :
    Except String (List String) :=
  globNames dir pattern (fs.readdir dir) found

/-- The loop of Go `globWithLimit` over the directories that match the
directory part of the pattern. -/
def globDirs (fs : FS) (pattern : String) : List String → List String → Except String (List String)
  | [], found => .ok found
  | d :: dirs, found =>
    match filepath.glob fs d pattern found with
    | .error e => .error e
    | .ok found1 => globDirs fs pattern dirs found1

/-- Go `globWithLimit(pattern, depth)`; `limit` is what is left of the 10000
levels Go allows, and `depth == pathSeparatorsLimit` is `limit = 0`. An error
is returned without the matches found before it, which the trigger does not
read. -/
def globWithLimit (fs : FS) : Nat → String → Except String (List String)
  | 0, _ => .error ErrBadPattern
  | limit + 1, pattern =>
    match filepath.Match pattern "" with
    | .error e => .error e
    | .ok _ =>
      if hasMeta pattern = false then
        if common.FileExists fs pattern ∨ fs.isDir pattern = true then .ok [pattern] else .ok []
      else if hasMeta (cleanGlobPath (filepath.Split pattern).1) = false then
        filepath.glob fs (cleanGlobPath (filepath.Split pattern).1) (filepath.Split pattern).2 []
      else if cleanGlobPath (filepath.Split pattern).1 = pattern then .error ErrBadPattern
      else
        match globWithLimit fs limit (cleanGlobPath (filepath.Split pattern).1) with
        | .error e => .error e
        | .ok m => globDirs fs (filepath.Split pattern).2 m []

/-- Go `filepath.Glob`: the existing paths, files and directories, that match
the pattern, found directory by directory; `ErrBadPattern` for a malformed
pattern. -/
def filepath.Glob (fs : FS) (pattern : String) : Except String (List String) :=
  globWithLimit fs 10000 pattern

/-! ## Staging and promotion -/

/-- The loop `for _, f := range files` of `TriggerCorePostExtract`: removes
the files in turn and stops at the first error. -/
def removeFiles (env : Env) : List String → FS → Result
  | [], fs => ⟨fs, none⟩
  | f :: rest, fs =>
    match os.Remove env fs f with
    | .error e => ⟨fs, some e⟩
    | .ok fs1 => removeFiles env rest fs1

/-- The result of a trigger's last call, `return common.TouchFile(...)`. -/
def returning (fs : FS) : Except String FS → Result
  | .error e => ⟨fs, some e⟩
  | .ok fs1 => ⟨fs1, none⟩

/-- The value of `appJSONPath` in `TriggerCorePostExtract`: the configured
path without surrounding slashes, `app.json` when that is empty. -/
def configuredPath (env : Env) (appName : String) : String :=
  if strings.Trim (env.reportComputedAppjsonpath appName) "/" = "" then "app.json"
  else strings.Trim (env.reportComputedAppjsonpath appName) "/"

/-- The value of `processSpecificAppJSON`: the attempt-scoped document path. -/
def processSpecificPath (env : Env) (appName : String) : String :=
  common.GetAppJSONPath env appName ++ "." ++ env.DOKKU_PID

/-- The missing-marker path, `processSpecificAppJSON` followed by `.missing`. -/
def missingPath (env : Env) (appName : String) : String :=
  processSpecificPath env appName ++ ".missing"

/-- The part of `TriggerCorePostExtract` after the cleanup loop (lines 103 to 144). -/
def stageDocument (env : Env) (fs : FS) (appName sourceWorkDir : String) : Result :=
  let appJSONPath := configuredPath env appName
  let processSpecificAppJSON := processSpecificPath env appName
  let appSourceImage := env.sourceImage appName
  let buildDir := env.buildDir appName
  let repoDefaultAppJSONPath := path.Join [sourceWorkDir, "app.json"]
  if appSourceImage = "" then
    let repoAppJSONPath := path.Join [sourceWorkDir, buildDir, appJSONPath]
    if !common.FileExists fs repoAppJSONPath then
      if appJSONPath ≠ "app.json" ∧ common.FileExists fs repoDefaultAppJSONPath = true then
        match os.Remove env fs repoDefaultAppJSONPath with
        | .error e => ⟨fs, some e⟩
        | .ok fs1 => returning fs1 (common.TouchFile env fs1 (processSpecificAppJSON ++ ".missing"))
      else returning fs (common.TouchFile env fs (processSpecificAppJSON ++ ".missing"))
    else
      match common.Copy env fs repoAppJSONPath processSpecificAppJSON with
      | .error e => ⟨fs, some ("Unable to extract app.json: " ++ e)⟩
      | .ok fs1 =>
        if appJSONPath ≠ "app.json" then
          match common.Copy env fs1 repoAppJSONPath repoDefaultAppJSONPath with
          | .error e => ⟨fs1, some ("Unable to move app.json into place: " ++ e)⟩
          | .ok fs2 => ⟨fs2, none⟩
        else ⟨fs1, none⟩
  else
    match common.CopyFromImage env fs appName appSourceImage
        (path.Join [buildDir, appJSONPath]) processSpecificAppJSON with
    | .error _ => returning fs (common.TouchFile env fs (processSpecificAppJSON ++ ".missing"))
    | .ok fs1 => ⟨fs1, none⟩

/-- The trigger `TriggerCorePostExtract` (Stage): removes what earlier attempts
staged, then stages the document of this attempt or its missing-marker. -/
def TriggerCorePostExtract (env : Env) (fs : FS) (appName sourceWorkDir : String) : Result :=
  let existingAppJSON := common.GetAppJSONPath env appName
  match filepath.Glob fs (existingAppJSON ++ ".*") with
  | .error e => ⟨fs, some e⟩
  | .ok files =>
    match removeFiles env files fs with
    | ⟨fs1, some e⟩ => ⟨fs1, some e⟩
    | ⟨fs1, none⟩ => stageDocument env fs1 appName sourceWorkDir

/-- The trigger `TriggerCorePostDeploy` (Commit): promotes the staged document
to the canonical path, or removes the missing-marker and the canonical
document. -/
def TriggerCorePostDeploy (env : Env) (fs : FS) (appName : String) : Result :=
  let existingAppJSON := common.GetAppJSONPath env appName
  let processSpecificAppJSON := existingAppJSON ++ "." ++ env.DOKKU_PID
  if common.FileExists fs processSpecificAppJSON then
    match os.Rename env fs processSpecificAppJSON existingAppJSON with
    | .error e => ⟨fs, some e⟩
    | .ok fs1 => ⟨fs1, none⟩
  else if common.FileExists fs (processSpecificAppJSON ++ ".missing") then
    match os.Remove env fs (processSpecificAppJSON ++ ".missing") with
    | .error e => ⟨fs, some e⟩
    | .ok fs1 =>
      if common.FileExists fs1 existingAppJSON then
        match os.Remove env fs1 existingAppJSON with
        | .error e => ⟨fs1, some e⟩
        | .ok fs2 => ⟨fs2, none⟩
      else ⟨fs1, none⟩
  else ⟨fs, none⟩

/-- The trigger `TriggerAppJSONGetContent`: prints the document, `{}` when
there is none or it is blank. -/
def TriggerAppJSONGetContent (env : Env) (fs : FS) (appName : String) : Output :=
  if !env.HasAppJSON fs appName then ⟨"\x7b\x7d", none⟩
  else
    match os.ReadFile env fs (env.GetProcessSpecificAppJSONPath fs appName) with
    | .error e => ⟨"", some ("Cannot read app.json file: " ++ e)⟩
    | .ok b =>
      if strings.TrimSpace b = "" then ⟨"\x7b\x7d", none⟩
      else ⟨strings.TrimSpace b, none⟩

/-! ## Deploy parallelism -/

/-- The body of the loop over `appJSON.Formation` in
`TriggerAppJSONProcessDeployParallelism`, for one entry of the map. -/
def parallelismStep (processType : String) (parallelism : Int) (entry : String × Formation) : Int :=
  if entry.1 ≠ processType then parallelism
  else
    match entry.2.MaxParallel with
    | none => parallelism
    | some m => if m > 0 then m else parallelism

/-- The value of `parallelism` after the loop of
`TriggerAppJSONProcessDeployParallelism`, which starts from 1. -/
def deployParallelism (formation : List (String × Formation)) (processType : String) : Int :=
  formation.foldl (parallelismStep processType) 1

/-- The trigger `TriggerAppJSONProcessDeployParallelism`: prints the number of
processes to deploy in parallel (`fmt.Println`). -/
def TriggerAppJSONProcessDeployParallelism (env : Env) (appName processType : String) : Output :=
  match env.GetAppJSON appName with
  | .error e => ⟨"", some e⟩
  | .ok appJSON => ⟨toString (deployParallelism appJSON.Formation processType) ++ "\n", none⟩

/-! ## The property store and the lifecycle scripts -/

/-- The property store: plugin, app and key give the value, `none` when the
key is not set. -/
abbrev Props := String → String → String → Option String

/-- What a trigger on the property store leaves behind. -/
structure PropResult where
  props : Props
  err : Option String

/-- Modelled from the spec: `common.PropertyGet` (plugins/common is not among
the sources), "Get(namespace, app, key) -> string": the value, the empty
string when the key is not set. -/
def common.PropertyGet (props : Props) (plugin app key : String) : String :=
  (props plugin app key).getD ""

/-- Modelled from the spec: `common.PropertyWrite` (plugins/common is not
among the sources), "Set(namespace, app, key, value) -> error": a successful
write is what later reads return. -/
def common.PropertyWrite (env : Env) (props : Props) (plugin app key value : String) :
    Except String Props :=
  if env.fault (.propertyWrite plugin app key) then .error "Unable to write property"
  else .ok (fun pl a k => if pl = plugin ∧ a = app ∧ k = key then some value else props pl a k)

/-- Modelled from the spec: `common.PropertyClone` (plugins/common is not
among the sources), "Clone(namespace, old, new) -> error": every key of the
old app is written under the new app. -/
def common.PropertyClone (env : Env) (props : Props) (plugin old new : String) :
    Except String Props :=
  if env.fault (.propertyClone plugin old new) then .error "Unable to clone properties"
  else .ok (fun pl a k =>
    if pl = plugin ∧ a = new then
      match props plugin old k with
      | some v => some v
      | none => props pl a k
    else props pl a k)

/-- Modelled from the spec: `common.PropertyDestroy` (plugins/common is not
among the sources), "Destroy(namespace, app) -> error": the namespace of the
app is removed with all its keys. -/
def common.PropertyDestroy (env : Env) (props : Props) (plugin app : String) :
    Except String Props :=
  if env.fault (.propertyDestroy plugin app) then .error "Unable to destroy properties"
  else .ok (fun pl a k => if pl = plugin ∧ a = app then none else props pl a k)

/-- Modelled from the spec: `common.CloneAppData` (plugins/common is not among
the sources), the data directory interface "Clone(namespace, old, new)": it
works on the data directories and leaves the property store alone. -/
def common.CloneAppData (env : Env) (plugin old new : String) : Option String :=
  if env.fault (.cloneAppData plugin old new) then some "Unable to clone app data" else none

/-- The trigger `TriggerPostAppRenameSetup`: clones the properties of the old
app under the new name and destroys the old ones. -/
def TriggerPostAppRenameSetup (env : Env) (props : Props) (oldAppName newAppName : String) :
    PropResult :=
  match common.PropertyClone env props "app-json" oldAppName newAppName with
  | .error e => ⟨props, some e⟩
  | .ok props1 =>
    match common.PropertyDestroy env props1 "app-json" oldAppName with
    | .error e => ⟨props1, some e⟩
    | .ok props2 => ⟨props2, common.CloneAppData env "app-json" oldAppName newAppName⟩

/-- One call of `executeScript`. -/
structure ScriptCall where
  app : String
  image : String
  tag : String
  phase : String
deriving DecidableEq, Repr

/-- The state the release trigger works on: the property store and the calls
of `executeScript` made so far, the latest last. -/
structure Deploy where
  props : Props
  scripts : List ScriptCall

/-- What the release trigger leaves behind. -/
structure DeployResult where
  state : Deploy
  err : Option String

/-- Modelled from the spec: `executeScript` (functions.go is not among the
sources), "Run(app, image, tag, phaseName) -> error": the script of the phase
is run, which the state records, and its error is returned. -/
def executeScript (env : Env) (d : Deploy) (appName image imageTag phase : String) : DeployResult :=
  ⟨⟨d.props, d.scripts ++ [⟨appName, image, imageTag, phase⟩]⟩,
    env.scriptError appName image imageTag phase⟩

/-- The value of `imageTag`: `parts[len(parts)-1]` for
`parts := strings.Split(image, ":")`. -/
def imageTagOf (image : String) : String :=
  (strings.Split image ':').getLastD ""

/-- The trigger `TriggerPostReleaseBuilder`: runs the release script, sets the
scale, and runs the `heroku.postdeploy` script unless the app is deployed or
the script was run before. -/
def TriggerPostReleaseBuilder (env : Env) (d : Deploy) (_builderType appName image : String) :
    DeployResult :=
  let imageTag := imageTagOf image
  match executeScript env d appName image imageTag "release" with
  | ⟨d1, some e⟩ => ⟨d1, some e⟩
  | ⟨d1, none⟩ =>
    match env.scaleError appName image with
    | some e => ⟨d1, some e⟩
    | none =>
      if common.PropertyGet d1.props "common" appName "deployed" = "true" then ⟨d1, none⟩
      else if common.PropertyGet d1.props "app-json" appName "heroku.postdeploy" = "executed" then
        ⟨d1, none⟩
      else
        match common.PropertyWrite env d1.props "app-json" appName "heroku.postdeploy" "executed" with
        | .error e => ⟨d1, some e⟩
        | .ok props1 => executeScript env ⟨props1, d1.scripts⟩ appName image imageTag "heroku.postdeploy"

/-- One release invocation of a deployment history: the surroundings it runs
in, its arguments, and what other processes did to the property store since
the invocation before. -/
structure Invocation where
  env : Env
  builderType : String
  image : String
  before : Props → Props

/-- A sequence of release invocations for one app, each after the changes
other processes made; an invocation that fails does not stop later ones. -/
def runReleases (appName : String) : List Invocation → Deploy → Deploy
  | [], d => d
  | inv :: rest, d =>
    runReleases appName rest
      (TriggerPostReleaseBuilder inv.env ⟨inv.before d.props, d.scripts⟩
        inv.builderType appName inv.image).state

/-- The number of times the `heroku.postdeploy` script of the app was run. -/
def postdeployRuns (appName : String) (scripts : List ScriptCall) : Nat :=
  (scripts.filter (fun c => c.app = appName ∧ c.phase = "heroku.postdeploy")).length

/-! ## What the statements speak of -/

/-- The path lies in the directory that holds the canonical document of the
app, or below it. -/
def inDataDir (env : Env) (appName p : String) : Bool :=
  (dirOf (common.GetAppJSONPath env appName).toList).isPrefixOf p.toList

/-- The execution marker of the app is set. -/
def markerSet (appName : String) (props : Props) : Prop :=
  common.PropertyGet props "app-json" appName "heroku.postdeploy" = "executed"

/-! ## Notions of the proofs -/

/-- The characters of a plain file name: none of `*`, `?`, `[` and backslash. -/
def plainChars (l : List Char) : Prop :=
  ∀ c ∈ l, c ≠ '*' ∧ c ≠ '?' ∧ c ≠ '[' ∧ c ≠ backslash

/-- The elements `path.Clean` has kept, the last one first, are in order: each
is a name without separator, other than the empty one and `.`, and `..`
stands only at the front of a relative path. -/
def wellStacked (rooted : Bool) : List (List Char) → Prop
  | [] => True
  | top :: st =>
    top ≠ [] ∧ top ≠ ['.'] ∧ '/' ∉ top ∧
      (top = ['.', '.'] → rooted = false ∧ (st = [] ∨ st.head? = some ['.', '.'])) ∧
      wellStacked rooted st

/-- The name is `app.json.` followed by anything without a separator: what the
pattern `app.json.*` matches. -/
def stagedName (n : String) : Bool :=
  "app.json.".toList.isPrefixOf n.toList &&
    !(n.toList.drop "app.json.".toList.length).contains '/'

/-! ## Concrete inputs -/

/-- The surroundings of a trigger run as process 7 for apps kept under `/data`,
built from the source tree, with the document configured at `config/app.json`;
no call fails. -/
def envWeb : Env where
  DOKKU_PID := "7"
  GetAppDataDirectory := fun _ a => "/data/" ++ a
  GetProcessSpecificAppJSONPath := fun _ a => "/data/" ++ a ++ "/app.json"
  HasAppJSON := fun fs a => common.FileExists fs ("/data/" ++ a ++ "/app.json")
  GetAppJSON := fun _ => .ok ⟨[]⟩
  reportComputedAppjsonpath := fun _ => "config/app.json"
  sourceImage := fun _ => ""
  buildDir := fun _ => ""
  imageFile := fun _ _ _ => none
  scriptError := fun _ _ _ _ => none
  scaleError := fun _ _ => none
  fault := fun _ => false

/-- A filesystem with the attempt-scoped document of process 7 and its
missing-marker at once. -/
def fsBoth : FS := ⟨[("/data/web/app.json.7", "new"), ("/data/web/app.json.7.missing", "")]⟩

/-- A filesystem with a staged document of process 7 beside the canonical
document. -/
def fsStaged : FS := ⟨[("/data/web/app.json.7", "new"), ("/data/web/app.json", "old")]⟩

/-- A filesystem with a document at the configured path of the source tree and
with the leftovers of attempt 3. -/
def fsSource : FS :=
  ⟨[("/src/config/app.json", "new"), ("/data/web/app.json", "old"),
    ("/data/web/app.json.3", "stale"), ("/data/web/app.json.3.missing", "")]⟩

/-- A filesystem whose only file is the canonical document of `web`. -/
def fsCanonical : FS := ⟨[("/data/web/app.json", "old")]⟩

/-- A filesystem with a default document in the source tree and none at the
configured path. -/
def fsDefaultOnly : FS := ⟨[("/src/app.json", "other"), ("/data/web/app.json", "old")]⟩

/-- A property store with one key of the plugin set for `web`. -/
def propsWeb : Props :=
  fun plugin app key => if plugin = "app-json" ∧ app = "web" ∧ key = "k" then some "v" else none

/-- A deployment state with an empty property store and no script run. -/
def deployFresh : Deploy := ⟨fun _ _ _ => none, []⟩

/-- Three release invocations of one deployment history; before the second
another process writes the `deployed` property of the app. -/
def threeReleases : List Invocation :=
  [⟨envWeb, "herokuish", "dokku/web:latest", fun p => p⟩,
   ⟨envWeb, "herokuish", "dokku/web:latest", fun p plugin app key =>
      if plugin = "common" ∧ app = "web" ∧ key = "deployed" then some "false" else p plugin app key⟩,
   ⟨envWeb, "herokuish", "dokku/web:v2", fun p => p⟩]

/-- A parsed document with a formation for three process types. -/
def appJSONFormation : AppJSON :=
  ⟨[("web", ⟨some 2, some 4⟩), ("worker", ⟨none, some 0⟩), ("cron", ⟨some 1, none⟩)]⟩

/-- The surroundings of a trigger for an app whose document parses to
`appJSONFormation`. -/
def envFormation : Env := { envWeb with GetAppJSON := fun _ => .ok appJSONFormation }

/-- A filesystem with a document at the configured path of the source tree and
the missing-marker an earlier attempt of process 7 left for the app `a[b]c`. -/
def fsClass : FS :=
  ⟨[("/src/config/app.json", "new"), ("/data/a[b]c/app.json.7.missing", "")]⟩

/-- A filesystem whose document of `web` is white space only. -/
def fsBlank : FS := ⟨[("/data/web/app.json", " \n\t ")]⟩

/-- A filesystem whose document of `web` has white space around its text. -/
def fsPadded : FS := ⟨[("/data/web/app.json", "\n [1, 2] \n")]⟩

/-- A filesystem with a staged file that belongs to the app `abc`. -/
def fsOther : FS := ⟨[("/data/abc/app.json.3", "other")]⟩

/-! ## Lemmas on the filesystem -/

theorem find_filter_ne (l : List (String × String)) (p q : String) :
    (l.filter (fun e => e.1 ≠ p)).find? (fun e => e.1 = q) =
      if q = p then none else l.find? (fun e => e.1 = q) := by
  induction l with
  | nil => simp
  | cons e l ih =>
    by_cases h1 : e.1 = p
    · rw [List.filter_cons_of_neg (by simpa using h1), ih]
      by_cases h2 : q = p
      · simp [h2]
      · have h3 : ¬ e.1 = q := fun h => h2 (h ▸ h1)
        rw [List.find?_cons_of_neg _ (by simpa using h3)]
    · rw [List.filter_cons_of_pos (by simpa using h1)]
      by_cases h2 : e.1 = q
      · have h3 : ¬ q = p := fun h => h1 (h ▸ h2)
        rw [List.find?_cons_of_pos _ (by simpa using h2), List.find?_cons_of_pos _ (by simpa using h2),
          if_neg h3]
      · rw [List.find?_cons_of_neg _ (by simpa using h2), List.find?_cons_of_neg _ (by simpa using h2), ih]

theorem FS.read_remove (fs : FS) (p q : String) :
    (fs.remove p).read q = if q = p then none else fs.read q := by
  simp only [FS.remove, FS.read, find_filter_ne]
  split <;> rfl

theorem FS.read_write (fs : FS) (p c q : String) :
    (fs.write p c).read q = if q = p then some c else fs.read q := by
  by_cases h : q = p
  · subst h; simp [FS.write, FS.read]
  · have h2 : ¬ p = q := fun e => h e.symm
    have h3 := FS.read_remove fs p q
    rw [if_neg h] at h3
    rw [if_neg h, ← h3]
    simp only [FS.write, FS.read]
    rw [List.find?_cons_of_neg _ (by simpa using h2)]

theorem processSpecificPath_length (env : Env) (app : String) :
    (processSpecificPath env app).length =
      (common.GetAppJSONPath env app).length + 1 + env.DOKKU_PID.length := by
  have h1 : ".".length = 1 := rfl
  simp [processSpecificPath, String.length_append, h1]

theorem missingPath_length (env : Env) (app : String) :
    (missingPath env app).length = (processSpecificPath env app).length + 8 := by
  have h1 : ".missing".length = 8 := rfl
  simp [missingPath, String.length_append, h1]

theorem processSpecificPath_ne (env : Env) (app : String) :
    processSpecificPath env app ≠ common.GetAppJSONPath env app := by
  intro h
  have := congrArg String.length h
  rw [processSpecificPath_length] at this
  omega

theorem missingPath_ne (env : Env) (app : String) :
    missingPath env app ≠ common.GetAppJSONPath env app := by
  intro h
  have := congrArg String.length h
  rw [missingPath_length, processSpecificPath_length] at this
  omega

theorem missingPath_ne_processSpecificPath (env : Env) (app : String) :
    missingPath env app ≠ processSpecificPath env app := by
  intro h
  have := congrArg String.length h
  rw [missingPath_length] at this
  omega

theorem fileExists_iff (fs : FS) (p : String) :
    common.FileExists fs p = true ↔ fs.read p ≠ none := by
  simp [common.FileExists, Option.isSome_iff_ne_none]

theorem fileExists_false_iff (fs : FS) (p : String) :
    common.FileExists fs p = false ↔ fs.read p = none := by
  simp [common.FileExists]

/-! ## Lemmas on promotion -/

/-- The trigger with the paths named. -/
theorem TriggerCorePostDeploy_eq (env : Env) (fs : FS) (app : String) :
    TriggerCorePostDeploy env fs app =
      if common.FileExists fs (processSpecificPath env app) then
        match os.Rename env fs (processSpecificPath env app) (common.GetAppJSONPath env app) with
        | .error e => ⟨fs, some e⟩
        | .ok fs1 => ⟨fs1, none⟩
      else if common.FileExists fs (missingPath env app) then
        match os.Remove env fs (missingPath env app) with
        | .error e => ⟨fs, some e⟩
        | .ok fs1 =>
          if common.FileExists fs1 (common.GetAppJSONPath env app) then
            match os.Remove env fs1 (common.GetAppJSONPath env app) with
            | .error e => ⟨fs1, some e⟩
            | .ok fs2 => ⟨fs2, none⟩
          else ⟨fs1, none⟩
      else ⟨fs, none⟩ := rfl

theorem os_Remove_ok (env : Env) (fs fs1 : FS) (p : String) (h : os.Remove env fs p = .ok fs1) :
    fs1 = fs.remove p := by
  unfold os.Remove at h
  split_ifs at h
  cases h; rfl

theorem os_Rename_ok (env : Env) (fs fs1 : FS) (src dst : String)
    (h : os.Rename env fs src dst = .ok fs1) (hne : src ≠ dst) :
    ∃ c, fs.read src = some c ∧ fs1 = (fs.remove src).write dst c := by
  unfold os.Rename at h
  split_ifs at h
  split at h
  · cases h
  · rename_i c hc
    cases h
    exact ⟨c, hc, rfl⟩

/-- What a successful `TriggerCorePostDeploy` leaves behind, by what it found. -/
theorem commit_outcome (env : Env) (fs : FS) (appName : String)
    (hok : (TriggerCorePostDeploy env fs appName).err = none) :
    (∀ c, fs.read (processSpecificPath env appName) = some c →
      (TriggerCorePostDeploy env fs appName).fs.read (common.GetAppJSONPath env appName) = some c ∧
      (TriggerCorePostDeploy env fs appName).fs.read (processSpecificPath env appName) = none) ∧
    (fs.read (processSpecificPath env appName) = none →
      fs.read (missingPath env appName) ≠ none →
      (TriggerCorePostDeploy env fs appName).fs.read (missingPath env appName) = none ∧
      (TriggerCorePostDeploy env fs appName).fs.read (common.GetAppJSONPath env appName) = none) ∧
    (fs.read (processSpecificPath env appName) = none →
      fs.read (missingPath env appName) = none →
      (TriggerCorePostDeploy env fs appName).fs = fs) := by
  rw [TriggerCorePostDeploy_eq] at hok ⊢
  refine ⟨?_, ?_, ?_⟩
  · intro c hc
    have hex : common.FileExists fs (processSpecificPath env appName) = true := by
      rw [fileExists_iff, hc]; simp
    rw [if_pos hex] at hok ⊢
    cases hr : os.Rename env fs (processSpecificPath env appName) (common.GetAppJSONPath env appName) with
    | error e => rw [hr] at hok; simp at hok
    | ok fs1 =>
      obtain ⟨c', hc', rfl⟩ := os_Rename_ok env fs fs1 _ _ hr (processSpecificPath_ne env appName)
      rw [hc] at hc'
      cases hc'
      simp [FS.read_write, FS.read_remove, processSpecificPath_ne]
  · intro hdoc hmiss
    have hex : common.FileExists fs (processSpecificPath env appName) = false := by
      rw [fileExists_false_iff, hdoc]
    have hex2 : common.FileExists fs (missingPath env appName) = true := by
      rw [fileExists_iff]; exact hmiss
    simp only [hex, hex2, if_true, Bool.false_eq_true, if_false] at hok ⊢
    cases hr : os.Remove env fs (missingPath env appName) with
    | error e => rw [hr] at hok; simp at hok
    | ok fs1 =>
      have h1 := os_Remove_ok env fs fs1 _ hr
      subst h1
      rw [hr] at hok
      simp only at hok ⊢
      by_cases hc : common.FileExists (fs.remove (missingPath env appName)) (common.GetAppJSONPath env appName) = true
      · rw [if_pos hc] at hok ⊢
        cases hr2 : os.Remove env (fs.remove (missingPath env appName)) (common.GetAppJSONPath env appName) with
        | error e => rw [hr2] at hok; simp at hok
        | ok fs2 =>
          have h2 := os_Remove_ok env _ fs2 _ hr2
          subst h2
          simp [FS.read_remove]
      · rw [if_neg hc]
        have hc' := (fileExists_false_iff _ _).mp (by simpa using hc)
        simp [FS.read_remove, hc']
  · intro hdoc hmiss
    have hex : common.FileExists fs (processSpecificPath env appName) = false := by
      rw [fileExists_false_iff, hdoc]
    have hex2 : common.FileExists fs (missingPath env appName) = false := by
      rw [fileExists_false_iff, hmiss]
    simp [hex, hex2]

/-! ## Lemmas on joined paths -/

theorem splitOnChar_ne_nil (sep : Char) (l : List Char) : splitOnChar sep l ≠ [] := by
  cases l with
  | nil => simp [splitOnChar]
  | cons c cs =>
    unfold splitOnChar
    split_ifs
    · simp
    · split <;> simp

theorem splitOnChar_append (sep : Char) (a b : List Char) :
    splitOnChar sep (a ++ sep :: b) = splitOnChar sep a ++ splitOnChar sep b := by
  induction a with
  | nil => simp [splitOnChar]
  | cons x a ih =>
    by_cases hx : x = sep
    · simp [splitOnChar, hx, ih]
    · cases hs : splitOnChar sep a with
      | nil => exact absurd hs (splitOnChar_ne_nil sep a)
      | cons h t =>
        rw [List.cons_append, splitOnChar, if_neg hx, ih, splitOnChar, if_neg hx, hs]
        simp

theorem joinSlash_append_singleton (ys : List (List Char)) (a : List Char) :
    ∃ pre, joinSlash (ys ++ [a]) = pre ++ a := by
  induction ys with
  | nil => exact ⟨[], by simp [joinSlash]⟩
  | cons y ys ih =>
    obtain ⟨pre, hpre⟩ := ih
    cases hys : ys ++ [a] with
    | nil => simp at hys
    | cons z w =>
      refine ⟨y ++ '/' :: pre, ?_⟩
      rw [List.cons_append, hys, joinSlash, ← hys, hpre]
      simp

/-- The cleaned path ends in its last element when that is an ordinary name. -/
theorem clean_ends (pre name : List Char) (hname : name ≠ []) (hdot : name ≠ ['.'])
    (hdd : name ≠ ['.', '.']) (hns : splitOnChar '/' name = [name])
    (hpre : pre = [] ∨ ∃ s, pre = s ++ ['/']) :
    ∃ q, (path.Clean (String.mk (pre ++ name))).toList = q ++ name := by
  have hne : String.mk (pre ++ name) ≠ "" := by
    intro h
    have := congrArg String.toList h
    simp at this
    exact hname this.2
  have hsplit : ∃ xs, splitOnChar '/' (pre ++ name) = xs ++ [name] := by
    rcases hpre with rfl | ⟨s, rfl⟩
    · exact ⟨[], by simpa using hns⟩
    · refine ⟨splitOnChar '/' s, ?_⟩
      rw [List.append_assoc, List.singleton_append, splitOnChar_append, hns]
  obtain ⟨xs, hxs⟩ := hsplit
  unfold path.Clean
  rw [if_neg hne]
  simp only [String.toList]
  rw [hxs, List.foldl_append]
  simp only [List.foldl_cons, List.foldl_nil]
  have hstep : ∀ st r, cleanStep r st name = name :: st := by
    intro st r
    simp [cleanStep, hname, hdot, hdd]
  rw [hstep, List.reverse_cons]
  obtain ⟨q, hq⟩ := joinSlash_append_singleton
    (List.foldl (cleanStep (decide ((pre ++ name).head? = some '/'))) [] xs).reverse name
  rw [hq]
  split_ifs with h1 h2
  · exact ⟨'/' :: q, by simp⟩
  · simp at h2; exact absurd h2.2 hname
  · exact ⟨q, rfl⟩

theorem joinNonEmpty_two (s t : String) (ht : t ≠ "") :
    (joinNonEmpty [s, t]).toList = t.toList ∨
      (joinNonEmpty [s, t]).toList = (s.toList ++ ['/']) ++ t.toList := by
  simp only [joinNonEmpty, ht, if_false]
  by_cases hs : s = ""
  · left; simp [hs]
  · right; simp [hs, ht, String.toList, String.data_append]

theorem path_Join_default (s : String) :
    ∃ q, (path.Join [s, "app.json"]).toList = q ++ "app.json".toList := by
  have ht : ("app.json" : String) ≠ "" := by decide
  have hj : joinNonEmpty [s, "app.json"] ≠ "" := by
    intro h
    rcases joinNonEmpty_two s "app.json" ht with h1 | h1 <;> rw [h] at h1
    · exact absurd h1 (by decide)
    · have := congrArg List.length h1
      simp at this
  unfold path.Join
  rw [if_neg hj]
  have hmk : joinNonEmpty [s, "app.json"] = String.mk (joinNonEmpty [s, "app.json"]).toList := rfl
  rw [hmk]
  rcases joinNonEmpty_two s "app.json" ht with h1 | h1 <;> rw [h1]
  · have := clean_ends [] "app.json".toList (by decide) (by decide) (by decide) (by decide) (Or.inl rfl)
    simpa using this
  · exact clean_ends (s.toList ++ ['/']) "app.json".toList (by decide) (by decide) (by decide)
      (by decide) (Or.inr ⟨_, rfl⟩)

theorem path_Join_default_ne_missing (s x : String) :
    path.Join [s, "app.json"] ≠ x ++ ".missing" := by
  intro h
  obtain ⟨q, hq⟩ := path_Join_default s
  rw [h] at hq
  have h2 := congrArg List.reverse hq
  simp only [String.toList, String.data_append] at h2
  simp at h2

theorem dirOf_isPrefix (c : List Char) : dirOf c <+: c := by
  induction c with
  | nil => simp [dirOf]
  | cons x cs ih =>
    unfold dirOf
    split_ifs with h1 h2
    · exact (List.prefix_cons_inj x).mpr ih
    · subst h2; exact ⟨cs, rfl⟩
    · exact List.nil_prefix

/-! ## Lemmas on the cleanup loop -/

theorem FS.read_ne_none_iff (fs : FS) (p : String) :
    fs.read p ≠ none ↔ p ∈ fs.entries.map Prod.fst := by
  obtain ⟨l⟩ := fs
  simp only [FS.read]
  induction l with
  | nil => simp
  | cons e l ih =>
    by_cases h : e.1 = p
    · rw [List.find?_cons_of_pos _ (by simpa using h)]
      simp [h]
    · rw [List.find?_cons_of_neg _ (by simpa using h)]
      have h2 : ¬ p = e.1 := fun e' => h e'.symm
      simp only [List.map_cons, List.mem_cons, h2, false_or]
      exact ih

theorem removeFiles_frame (env : Env) (files : List String) (fs : FS) (p : String)
    (hp : p ∉ files) : (removeFiles env files fs).fs.read p = fs.read p := by
  induction files generalizing fs with
  | nil => rfl
  | cons f rest ih =>
    simp only [List.mem_cons, not_or] at hp
    unfold removeFiles
    cases hr : os.Remove env fs f with
    | error e => rfl
    | ok fs1 =>
      simp only
      rw [ih fs1 hp.2, os_Remove_ok env fs fs1 f hr, FS.read_remove, if_neg hp.1]

theorem removeFiles_removed (env : Env) (files : List String) (fs : FS) (p : String)
    (hok : (removeFiles env files fs).err = none) (hp : p ∈ files) :
    (removeFiles env files fs).fs.read p = none := by
  induction files generalizing fs with
  | nil => simp at hp
  | cons f rest ih =>
    unfold removeFiles at hok ⊢
    cases hr : os.Remove env fs f with
    | error e => rw [hr] at hok; simp at hok
    | ok fs1 =>
      rw [hr] at hok
      simp only at hok ⊢
      by_cases hmem : p ∈ rest
      · exact ih fs1 hok hmem
      · have hpf : p = f := by
          simp only [List.mem_cons] at hp
          rcases hp with h | h
          · exact h
          · exact absurd h hmem
        rw [removeFiles_frame env rest fs1 p hmem, os_Remove_ok env fs fs1 f hr, FS.read_remove,
          if_pos hpf]

theorem removeFiles_absent (env : Env) (files : List String) (fs : FS) (p : String)
    (h : fs.read p = none) : (removeFiles env files fs).fs.read p = none := by
  induction files generalizing fs with
  | nil => exact h
  | cons f rest ih =>
    unfold removeFiles
    cases hr : os.Remove env fs f with
    | error e => exact h
    | ok fs1 =>
      simp only
      apply ih
      rw [os_Remove_ok env fs fs1 f hr, FS.read_remove]
      split_ifs
      · rfl
      · exact h

/-! ## Lemmas on the staging calls -/

theorem touchFile_ok (env : Env) (fs fs1 : FS) (p : String)
    (h : common.TouchFile env fs p = .ok fs1) :
    fs1.read p ≠ none ∧ ∀ q, q ≠ p → fs1.read q = fs.read q := by
  unfold common.TouchFile at h
  split_ifs at h with h1 h2 h3
  · cases h
    exact ⟨(fileExists_iff _ _).mp h3, fun _ _ => rfl⟩
  · cases h
    refine ⟨by simp [FS.read_write], ?_⟩
    intro q hq
    rw [FS.read_write, if_neg hq]

theorem copy_ok (env : Env) (fs fs1 : FS) (src dst : String)
    (h : common.Copy env fs src dst = .ok fs1) :
    ∃ c, fs.read src = some c ∧ fs1 = fs.write dst c := by
  unfold common.Copy at h
  split_ifs at h
  split at h
  · cases h
  · rename_i c hc
    cases h
    exact ⟨c, hc, rfl⟩

theorem copyFromImage_ok (env : Env) (fs fs1 : FS) (app image src dst : String)
    (h : common.CopyFromImage env fs app image src dst = .ok fs1) :
    ∃ c, fs1 = fs.write dst c := by
  unfold common.CopyFromImage at h
  split_ifs at h
  split at h
  · cases h
  · rename_i c hc
    cases h
    exact ⟨c, rfl⟩

theorem returning_touch_frame (env : Env) (fs0 fs : FS) (p q : String) (hq : q ≠ p) :
    (returning fs0 (common.TouchFile env fs p)).fs.read q =
      match common.TouchFile env fs p with
      | .error _ => fs0.read q
      | .ok _ => fs.read q := by
  cases h : common.TouchFile env fs p with
  | error e => rfl
  | ok fs1 => exact (touchFile_ok env fs fs1 p h).2 q hq

/-- Staging leaves every path other than the attempt-scoped document and the
missing-marker as it was, but for the default document of the source tree
when there is no source image and the configured path is not `app.json`. -/
theorem stageDocument_frame (env : Env) (fs : FS) (appName sourceWorkDir p : String)
    (h1 : p ≠ processSpecificPath env appName) (h2 : p ≠ missingPath env appName)
    (h3 : env.sourceImage appName = "" → configuredPath env appName ≠ "app.json" →
      p ≠ path.Join [sourceWorkDir, "app.json"]) :
    (stageDocument env fs appName sourceWorkDir).fs.read p = fs.read p := by
  have h2' : p ≠ processSpecificPath env appName ++ ".missing" := h2
  have touch : ∀ fs0 fsa : FS, fs0.read p = fsa.read p →
      (returning fs0 (common.TouchFile env fsa
        (processSpecificPath env appName ++ ".missing"))).fs.read p = fsa.read p := by
    intro fs0 fsa h0
    rw [returning_touch_frame env fs0 fsa _ p h2']
    split
    · exact h0
    · rfl
  unfold stageDocument
  simp only
  by_cases hi : env.sourceImage appName = ""
  · rw [if_pos hi]
    by_cases hr : (!common.FileExists fs
        (path.Join [sourceWorkDir, env.buildDir appName, configuredPath env appName])) = true
    · rw [if_pos hr]
      by_cases hd : configuredPath env appName ≠ "app.json" ∧
          common.FileExists fs (path.Join [sourceWorkDir, "app.json"]) = true
      · rw [if_pos hd]
        cases hrm : os.Remove env fs (path.Join [sourceWorkDir, "app.json"]) with
        | error e => rfl
        | ok fsa =>
          simp only
          have e := os_Remove_ok env fs fsa _ hrm
          rw [touch fsa fsa rfl, e, FS.read_remove, if_neg (h3 hi hd.1)]
      · rw [if_neg hd]
        exact touch fs fs rfl
    · rw [if_neg hr]
      cases hc : common.Copy env fs
          (path.Join [sourceWorkDir, env.buildDir appName, configuredPath env appName])
          (processSpecificPath env appName) with
      | error e => rfl
      | ok fsa =>
        obtain ⟨c, _, rfl⟩ := copy_ok env fs fsa _ _ hc
        simp only
        by_cases hcfg : configuredPath env appName ≠ "app.json"
        · rw [if_pos hcfg]
          cases hc2 : common.Copy env (fs.write (processSpecificPath env appName) c)
              (path.Join [sourceWorkDir, env.buildDir appName, configuredPath env appName])
              (path.Join [sourceWorkDir, "app.json"]) with
          | error e =>
            simp only
            rw [FS.read_write, if_neg h1]
          | ok fsb =>
            obtain ⟨c2, _, rfl⟩ := copy_ok env _ fsb _ _ hc2
            simp only
            rw [FS.read_write, if_neg (h3 hi hcfg), FS.read_write, if_neg h1]
        · rw [if_neg hcfg, FS.read_write, if_neg h1]
  · rw [if_neg hi]
    cases hc : common.CopyFromImage env fs appName (env.sourceImage appName)
        (path.Join [env.buildDir appName, configuredPath env appName])
        (processSpecificPath env appName) with
    | error e => exact touch fs fs rfl
    | ok fsa =>
      obtain ⟨c, rfl⟩ := copyFromImage_ok env fs fsa _ _ _ _ hc
      simp only
      rw [FS.read_write, if_neg h1]

theorem returning_err (fs0 : FS) (r : Except String FS) (h : (returning fs0 r).err = none) :
    ∃ fs1, r = .ok fs1 ∧ returning fs0 r = ⟨fs1, none⟩ := by
  cases r with
  | error e => simp [returning] at h
  | ok fs1 => exact ⟨fs1, rfl, rfl⟩

/-- Started without the attempt-scoped document and without the marker, a
successful staging ends with exactly one of them. -/
theorem stageDocument_exclusive (env : Env) (fs : FS) (appName sourceWorkDir : String)
    (hd0 : fs.read (processSpecificPath env appName) = none)
    (hm0 : fs.read (missingPath env appName) = none)
    (hok : (stageDocument env fs appName sourceWorkDir).err = none) :
    ((stageDocument env fs appName sourceWorkDir).fs.read (processSpecificPath env appName) ≠ none ∧
      (stageDocument env fs appName sourceWorkDir).fs.read (missingPath env appName) = none) ∨
    ((stageDocument env fs appName sourceWorkDir).fs.read (processSpecificPath env appName) = none ∧
      (stageDocument env fs appName sourceWorkDir).fs.read (missingPath env appName) ≠ none) := by
  have hne : processSpecificPath env appName ≠ missingPath env appName :=
    fun h => missingPath_ne_processSpecificPath env appName h.symm
  have hdef : missingPath env appName ≠ path.Join [sourceWorkDir, "app.json"] :=
    fun h => path_Join_default_ne_missing sourceWorkDir _ h.symm
  have touch : ∀ fs0 fsa : FS, fsa.read (processSpecificPath env appName) = none →
      (returning fs0 (common.TouchFile env fsa
        (processSpecificPath env appName ++ ".missing"))).err = none →
      ((returning fs0 (common.TouchFile env fsa
        (processSpecificPath env appName ++ ".missing"))).fs.read
          (processSpecificPath env appName) = none ∧
       (returning fs0 (common.TouchFile env fsa
        (processSpecificPath env appName ++ ".missing"))).fs.read
          (missingPath env appName) ≠ none) := by
    intro fs0 fsa ha he
    obtain ⟨fs1, h1, h2⟩ := returning_err _ _ he
    rw [h2]
    have h3 := touchFile_ok env fsa fs1 _ h1
    exact ⟨by rw [h3.2 _ hne]; exact ha, h3.1⟩
  unfold stageDocument at hok ⊢
  simp only at hok ⊢
  by_cases hi : env.sourceImage appName = ""
  · rw [if_pos hi] at hok ⊢
    by_cases hr : (!common.FileExists fs
        (path.Join [sourceWorkDir, env.buildDir appName, configuredPath env appName])) = true
    · rw [if_pos hr] at hok ⊢
      by_cases hd : configuredPath env appName ≠ "app.json" ∧
          common.FileExists fs (path.Join [sourceWorkDir, "app.json"]) = true
      · rw [if_pos hd] at hok ⊢
        cases hrm : os.Remove env fs (path.Join [sourceWorkDir, "app.json"]) with
        | error e => rw [hrm] at hok; simp at hok
        | ok fsa =>
          rw [hrm] at hok
          simp only at hok ⊢
          have e := os_Remove_ok env fs fsa _ hrm
          right
          apply touch fsa fsa _ hok
          rw [e, FS.read_remove]
          split_ifs
          · rfl
          · exact hd0
      · rw [if_neg hd] at hok ⊢
        right
        exact touch fs fs hd0 hok
    · rw [if_neg hr] at hok ⊢
      cases hc : common.Copy env fs
          (path.Join [sourceWorkDir, env.buildDir appName, configuredPath env appName])
          (processSpecificPath env appName) with
      | error e => rw [hc] at hok; simp at hok
      | ok fsa =>
        obtain ⟨c, _, rfl⟩ := copy_ok env fs fsa _ _ hc
        rw [hc] at hok
        simp only at hok ⊢
        left
        by_cases hcfg : configuredPath env appName ≠ "app.json"
        · rw [if_pos hcfg] at hok ⊢
          cases hc2 : common.Copy env (fs.write (processSpecificPath env appName) c)
              (path.Join [sourceWorkDir, env.buildDir appName, configuredPath env appName])
              (path.Join [sourceWorkDir, "app.json"]) with
          | error e => rw [hc2] at hok; simp at hok
          | ok fsb =>
            obtain ⟨c2, _, rfl⟩ := copy_ok env _ fsb _ _ hc2
            simp only
            refine ⟨?_, ?_⟩
            · rw [FS.read_write]
              split_ifs
              · simp
              · simp [FS.read_write]
            · rw [FS.read_write, if_neg hdef, FS.read_write, if_neg hne.symm]
              exact hm0
        · rw [if_neg hcfg]
          refine ⟨by simp [FS.read_write], ?_⟩
          rw [FS.read_write, if_neg hne.symm]
          exact hm0
  · rw [if_neg hi] at hok ⊢
    cases hc : common.CopyFromImage env fs appName (env.sourceImage appName)
        (path.Join [env.buildDir appName, configuredPath env appName])
        (processSpecificPath env appName) with
    | error e =>
      rw [hc] at hok
      right
      exact touch fs fs hd0 hok
    | ok fsa =>
      obtain ⟨c, rfl⟩ := copyFromImage_ok env fs fsa _ _ _ _ hc
      left
      refine ⟨by simp [FS.read_write], ?_⟩
      simp only
      rw [FS.read_write, if_neg hne.symm]
      exact hm0

/-- With no image and a configured path other than `app.json` that names no
file, a successful staging leaves no default document in the source tree and
leaves the marker. -/
theorem stageDocument_non_default (env : Env) (fs : FS) (appName sourceWorkDir : String)
    (himg : env.sourceImage appName = "")
    (hcfg : configuredPath env appName ≠ "app.json")
    (habs : fs.read (path.Join [sourceWorkDir, env.buildDir appName,
      configuredPath env appName]) = none)
    (hok : (stageDocument env fs appName sourceWorkDir).err = none) :
    (stageDocument env fs appName sourceWorkDir).fs.read (path.Join [sourceWorkDir, "app.json"]) = none ∧
    (stageDocument env fs appName sourceWorkDir).fs.read (missingPath env appName) ≠ none := by
  have hdef : path.Join [sourceWorkDir, "app.json"] ≠ missingPath env appName :=
    path_Join_default_ne_missing sourceWorkDir _
  have touch : ∀ fs0 fsa : FS, fsa.read (path.Join [sourceWorkDir, "app.json"]) = none →
      (returning fs0 (common.TouchFile env fsa
        (processSpecificPath env appName ++ ".missing"))).err = none →
      ((returning fs0 (common.TouchFile env fsa
        (processSpecificPath env appName ++ ".missing"))).fs.read
          (path.Join [sourceWorkDir, "app.json"]) = none ∧
       (returning fs0 (common.TouchFile env fsa
        (processSpecificPath env appName ++ ".missing"))).fs.read
          (missingPath env appName) ≠ none) := by
    intro fs0 fsa ha he
    obtain ⟨fs1, h1, h2⟩ := returning_err _ _ he
    rw [h2]
    have h3 := touchFile_ok env fsa fs1 _ h1
    exact ⟨by rw [h3.2 _ hdef]; exact ha, h3.1⟩
  have hr : (!common.FileExists fs
      (path.Join [sourceWorkDir, env.buildDir appName, configuredPath env appName])) = true := by
    simp [common.FileExists, habs]
  unfold stageDocument at hok ⊢
  simp only at hok ⊢
  rw [if_pos himg, if_pos hr] at hok ⊢
  by_cases hd : configuredPath env appName ≠ "app.json" ∧
      common.FileExists fs (path.Join [sourceWorkDir, "app.json"]) = true
  · rw [if_pos hd] at hok ⊢
    cases hrm : os.Remove env fs (path.Join [sourceWorkDir, "app.json"]) with
    | error e => rw [hrm] at hok; simp at hok
    | ok fsa =>
      rw [hrm] at hok
      simp only at hok ⊢
      have e := os_Remove_ok env fs fsa _ hrm
      apply touch fsa fsa _ hok
      rw [e, FS.read_remove, if_pos rfl]
  · rw [if_neg hd] at hok ⊢
    apply touch fs fs _ hok
    have : common.FileExists fs (path.Join [sourceWorkDir, "app.json"]) = false := by
      by_contra h
      exact hd ⟨hcfg, by simpa using h⟩
    exact (fileExists_false_iff _ _).mp this

theorem toList_processSpecificPath (env : Env) (app : String) :
    (processSpecificPath env app).toList =
      (common.GetAppJSONPath env app).toList ++ '.' :: env.DOKKU_PID.toList := by
  simp [processSpecificPath, String.toList, String.data_append]

theorem toList_missingPath (env : Env) (app : String) :
    (missingPath env app).toList =
      (common.GetAppJSONPath env app).toList ++ '.' :: (env.DOKKU_PID.toList ++ ".missing".toList) := by
  simp [missingPath, processSpecificPath, String.toList, String.data_append]

/-! ## Staged files under a directory of their own -/

theorem isDir_of (fs : FS) (k q : String) (t : List Char) (hk : fs.read k ≠ none)
    (hkq : k.toList = q.toList ++ '/' :: t) : fs.isDir q = true := by
  rw [FS.read_ne_none_iff, List.mem_map] at hk
  obtain ⟨e, he, rfl⟩ := hk
  unfold FS.isDir
  rw [List.any_eq_true]
  refine ⟨e, he, ?_⟩
  rw [List.isPrefixOf_iff_prefix, hkq]
  exact ⟨t, by simp⟩

theorem os_Remove_isDir (env : Env) (fs : FS) (p : String) (h : fs.isDir p = true) :
    ∃ e, os.Remove env fs p = .error e := by
  unfold os.Remove
  split_ifs
  · exact ⟨_, rfl⟩
  · exact ⟨_, rfl⟩

/-- The cleanup loop fails when it is to remove a directory that holds a file
the loop does not remove. -/
theorem removeFiles_blocked (env : Env) (files : List String) (fs : FS) (k q : String)
    (t : List Char) (hq : q ∈ files) (hk : fs.read k ≠ none) (hkf : k ∉ files)
    (hkq : k.toList = q.toList ++ '/' :: t) : (removeFiles env files fs).err ≠ none := by
  induction files generalizing fs with
  | nil => simp at hq
  | cons f rest ih =>
    simp only [List.mem_cons, not_or] at hkf
    unfold removeFiles
    cases hr : os.Remove env fs f with
    | error e => simp
    | ok fs1 =>
      simp only
      have hfq : q ≠ f := by
        intro e
        subst e
        obtain ⟨e, he⟩ := os_Remove_isDir env fs q (isDir_of fs k q t hk hkq)
        rw [he] at hr
        cases hr
      have hq' : q ∈ rest := by
        rcases List.mem_cons.mp hq with h | h
        · exact absurd h hfq
        · exact h
      apply ih fs1 hq' _ hkf.2
      rw [os_Remove_ok env fs fs1 f hr, FS.read_remove, if_neg hkf.1]
      exact hk

theorem first_slash (r : List Char) (h : '/' ∈ r) : ∃ u v, r = u ++ '/' :: v ∧ '/' ∉ u := by
  induction r with
  | nil => simp at h
  | cons x r ih =>
    by_cases hx : x = '/'
    · exact ⟨[], r, by simp [hx], by simp⟩
    · have hr : '/' ∈ r := by
        rcases List.mem_cons.mp h with h | h
        · exact absurd h.symm hx
        · exact h
      obtain ⟨u, v, huv, hu⟩ := ih hr
      refine ⟨x :: u, v, by simp [huv], ?_⟩
      simp only [List.mem_cons, not_or]
      exact ⟨fun e => hx e.symm, hu⟩

/-! ## Lemmas on the property store and the release trigger -/

theorem propertyClone_ok (env : Env) (props props1 : Props) (plugin old new : String)
    (h : common.PropertyClone env props plugin old new = .ok props1) :
    props1 = fun pl a k =>
      if pl = plugin ∧ a = new then
        match props plugin old k with
        | some v => some v
        | none => props pl a k
      else props pl a k := by
  unfold common.PropertyClone at h
  split_ifs at h
  cases h; rfl

theorem propertyDestroy_ok (env : Env) (props props1 : Props) (plugin app : String)
    (h : common.PropertyDestroy env props plugin app = .ok props1) :
    props1 = fun pl a k => if pl = plugin ∧ a = app then none else props pl a k := by
  unfold common.PropertyDestroy at h
  split_ifs at h
  cases h; rfl

theorem postdeployRuns_append (appName : String) (scripts : List ScriptCall) (c : ScriptCall) :
    postdeployRuns appName (scripts ++ [c]) =
      postdeployRuns appName scripts +
        if c.app = appName ∧ c.phase = "heroku.postdeploy" then 1 else 0 := by
  unfold postdeployRuns
  rw [List.filter_append, List.length_append]
  by_cases h : c.app = appName ∧ c.phase = "heroku.postdeploy"
  · simp [List.filter_cons, h]
  · simp [List.filter_cons, h]

/-- One release invocation runs the terminal script at most once, not at all
when the marker is set, and sets the marker whenever it runs the script. -/
theorem release_step (env : Env) (d : Deploy) (builderType appName image : String) :
    (markerSet appName d.props →
      postdeployRuns appName (TriggerPostReleaseBuilder env d builderType appName image).state.scripts =
        postdeployRuns appName d.scripts ∧
      markerSet appName (TriggerPostReleaseBuilder env d builderType appName image).state.props) ∧
    (postdeployRuns appName (TriggerPostReleaseBuilder env d builderType appName image).state.scripts =
        postdeployRuns appName d.scripts ∨
      (postdeployRuns appName (TriggerPostReleaseBuilder env d builderType appName image).state.scripts =
        postdeployRuns appName d.scripts + 1 ∧
      markerSet appName (TriggerPostReleaseBuilder env d builderType appName image).state.props)) := by
  have hrel : postdeployRuns appName (d.scripts ++ [⟨appName, image, imageTagOf image, "release"⟩]) =
      postdeployRuns appName d.scripts := by
    rw [postdeployRuns_append]
    simp
  have hpost : postdeployRuns appName
      (d.scripts ++ [⟨appName, image, imageTagOf image, "release"⟩] ++
        [⟨appName, image, imageTagOf image, "heroku.postdeploy"⟩]) =
      postdeployRuns appName d.scripts + 1 := by
    rw [postdeployRuns_append, hrel]
    simp
  unfold TriggerPostReleaseBuilder
  simp only [executeScript]
  cases hs : env.scriptError appName image (imageTagOf image) "release" with
  | some e => simp [hrel]
  | none =>
    simp only
    cases hsc : env.scaleError appName image with
    | some e => simp [hrel]
    | none =>
      simp only
      by_cases hdep : common.PropertyGet d.props "common" appName "deployed" = "true"
      · simp [hdep, hrel]
      · rw [if_neg hdep]
        by_cases hm : common.PropertyGet d.props "app-json" appName "heroku.postdeploy" = "executed"
        · simp [hm, hrel]
        · rw [if_neg hm]
          unfold common.PropertyWrite
          by_cases hf : env.fault (.propertyWrite "app-json" appName "heroku.postdeploy") = true
          · simp [hf, hrel, markerSet, hm]
          · simp only [hf, if_false]
            refine ⟨fun h => absurd h hm, Or.inr ⟨hpost, ?_⟩⟩
            simp [markerSet, common.PropertyGet]

theorem runReleases_marked (appName : String) (invs : List Invocation) (d : Deploy)
    (hext : ∀ inv ∈ invs, ∀ props : Props,
      inv.before props "app-json" appName "heroku.postdeploy" =
        props "app-json" appName "heroku.postdeploy")
    (hm : markerSet appName d.props) :
    postdeployRuns appName (runReleases appName invs d).scripts =
      postdeployRuns appName d.scripts ∧
    markerSet appName (runReleases appName invs d).props := by
  induction invs generalizing d with
  | nil => exact ⟨rfl, hm⟩
  | cons inv rest ih =>
    have hb : markerSet appName (inv.before d.props) := by
      unfold markerSet common.PropertyGet at hm ⊢
      rw [hext inv (by simp)]
      exact hm
    have h1 := (release_step inv.env ⟨inv.before d.props, d.scripts⟩ inv.builderType appName
      inv.image).1 hb
    have h2 := ih _ (fun i hi => hext i (by simp [hi])) h1.2
    unfold runReleases
    exact ⟨h2.1.trans h1.1, h2.2⟩

/-! ## Lemmas on the parallelism loop -/

theorem parallelism_foldl_absent (processType : String) (l : List (String × Formation))
    (init : Int) (h : ∀ e ∈ l, e.1 ≠ processType) :
    l.foldl (parallelismStep processType) init = init := by
  induction l generalizing init with
  | nil => rfl
  | cons e l ih =>
    rw [List.foldl_cons]
    have he : parallelismStep processType init e = init := by
      simp [parallelismStep, h e (by simp)]
    rw [he]
    exact ih init (fun x hx => h x (by simp [hx]))

/-- The loop ends with the value the one entry of the process type gives. -/
theorem parallelism_foldl_entry (processType : String) (l : List (String × Formation))
    (init : Int) (hkeys : (l.map Prod.fst).Nodup) (f : Formation)
    (hf : (processType, f) ∈ l) :
    l.foldl (parallelismStep processType) init =
      match f.MaxParallel with
      | none => init
      | some m => if m > 0 then m else init := by
  induction l generalizing init with
  | nil => simp at hf
  | cons e l ih =>
    rw [List.map_cons, List.nodup_cons] at hkeys
    rw [List.foldl_cons]
    rcases List.mem_cons.mp hf with h | h
    · subst h
      have habs : ∀ x ∈ l, x.1 ≠ processType := by
        intro x hx hxe
        exact hkeys.1 (List.mem_map.mpr ⟨x, hx, hxe⟩)
      rw [parallelism_foldl_absent processType l _ habs]
      simp only [parallelismStep, ne_eq, not_true_eq_false, if_false]
    · have hne : e.1 ≠ processType := by
        intro he
        exact hkeys.1 (List.mem_map.mpr ⟨(processType, f), h, he.symm⟩)
      have he : parallelismStep processType init e = init := by
        simp [parallelismStep, hne]
      rw [he]
      exact ih init hkeys.2 h

theorem deployParallelism_spec (l : List (String × Formation)) (processType : String)
    (hkeys : (l.map Prod.fst).Nodup) :
    (∀ f m, (processType, f) ∈ l → f.MaxParallel = some m → 0 < m →
      deployParallelism l processType = m) ∧
    ((¬ ∃ f m, (processType, f) ∈ l ∧ f.MaxParallel = some m ∧ 0 < m) →
      deployParallelism l processType = 1) := by
  refine ⟨?_, ?_⟩
  · intro f m hf hm hpos
    unfold deployParallelism
    rw [parallelism_foldl_entry processType l 1 hkeys f hf, hm]
    simp [hpos]
  · intro hno
    unfold deployParallelism
    by_cases hex : ∃ f, (processType, f) ∈ l
    · obtain ⟨f, hf⟩ := hex
      rw [parallelism_foldl_entry processType l 1 hkeys f hf]
      cases hm : f.MaxParallel with
      | none => rfl
      | some m =>
        simp only
        split_ifs with hpos
        · exact absurd ⟨f, m, hf, hm, hpos⟩ hno
        · rfl
    · apply parallelism_foldl_absent
      intro e he hk
      apply hex
      exact ⟨e.2, by rw [← hk]; exact he⟩

/-! ## Lemmas on patterns -/

theorem plainChars_cons (c : Char) (l : List Char) :
    plainChars (c :: l) ↔ (c ≠ '*' ∧ c ≠ '?' ∧ c ≠ '[' ∧ c ≠ backslash) ∧ plainChars l := by
  simp [plainChars]

/-- A chunk of plain characters matches the names that start with it. -/
theorem matchChunkLoop_plain (l : List Char) (hl : plainChars l) (fuel : Nat)
    (hfuel : l.length ≤ fuel) (failed : Bool) (s : List Char) :
    matchChunkLoop fuel failed l s =
      .ok (if failed = false ∧ l.isPrefixOf s = true then some (s.drop l.length) else none) := by
  induction l generalizing fuel failed s with
  | nil =>
    cases fuel <;> cases failed <;> simp [matchChunkLoop]
  | cons c l ih =>
    obtain ⟨⟨h1, h2, h3, h4⟩, hl'⟩ := (plainChars_cons c l).mp hl
    cases fuel with
    | zero => simp at hfuel
    | succ fuel =>
      have hf : l.length ≤ fuel := by simpa using hfuel
      simp only [matchChunkLoop, h3, h2, h4, if_false]
      rw [ih hl' fuel hf]
      cases s with
      | nil => simp
      | cons x xs =>
        cases failed
        · by_cases hx : x = c
          · subst hx; simp
          · have hx' : ¬ c = x := fun e => hx e.symm
            simp [hx, hx']
        · simp

theorem matchChunk_plain (l : List Char) (hl : plainChars l) (s : List Char) :
    matchChunk l s = .ok (if l.isPrefixOf s = true then some (s.drop l.length) else none) := by
  unfold matchChunk
  rw [matchChunkLoop_plain l hl _ (Nat.le_refl _)]
  simp

theorem scanSplit_plain (l : List Char) (hl : plainChars l) :
    scanSplit false (l ++ ['*']) = (l, ['*']) := by
  induction l with
  | nil => simp [scanSplit, backslash]
  | cons c l ih =>
    obtain ⟨⟨h1, h2, h3, h4⟩, hl'⟩ := (plainChars_cons c l).mp hl
    rw [List.cons_append, scanSplit.eq_def]
    simp only [h4, h3, h1, if_false, false_and, ih hl']
    split_ifs <;> rfl

theorem scanChunk_plain (l : List Char) (hl : plainChars l) (hne : l ≠ []) :
    scanChunk (l ++ ['*']) = (false, l, ['*']) := by
  cases l with
  | nil => exact absurd rfl hne
  | cons c l =>
    obtain ⟨⟨h1, _⟩, _⟩ := (plainChars_cons c l).mp hl
    unfold scanChunk
    have hd : (c :: l ++ ['*']).dropWhile (fun c => decide (c = '*')) = c :: l ++ ['*'] := by
      simp [List.dropWhile_cons, h1]
    rw [hd, scanSplit_plain _ hl]
    have h1' : ¬ '*' = c := fun e => h1 e.symm
    simp [h1, h1']

theorem scanChunk_star : scanChunk ['*'] = (true, [], []) := by decide

theorem matchLoop_succ (fuel : Nat) (p : Char) (ps name : List Char) :
    matchLoop (fuel + 1) (p :: ps) name =
      if (scanChunk (p :: ps)).1 = true ∧ (scanChunk (p :: ps)).2.1 = [] then
        .ok (!name.contains '/')
      else
        match matchChunk (scanChunk (p :: ps)).2.1 name with
        | .error e => .error e
        | .ok r =>
          if r.isSome ∧ (r = some [] ∨ (scanChunk (p :: ps)).2.2 ≠ []) then
            matchLoop fuel (scanChunk (p :: ps)).2.2 (r.getD [])
          else if (scanChunk (p :: ps)).1 then
            starLoop (matchLoop fuel (scanChunk (p :: ps)).2.2)
              (checkRest (scanChunk (p :: ps)).2.2.length (scanChunk (p :: ps)).2.2)
              (scanChunk (p :: ps)).2.1 (decide ((scanChunk (p :: ps)).2.2 = [])) name
          else checkRest (scanChunk (p :: ps)).2.2.length (scanChunk (p :: ps)).2.2 := by
  rw [matchLoop]
  all_goals first | rfl | (intro h; cases h)

/-- A pattern of plain characters and a final star matches the names that
start with the plain characters and go on without a separator. -/
theorem matchLoop_plain_star (l : List Char) (hl : plainChars l) (hne : l ≠ [])
    (fuel : Nat) (hfuel : 2 ≤ fuel) (name : List Char) :
    matchLoop fuel (l ++ ['*']) name =
      .ok (l.isPrefixOf name && !(name.drop l.length).contains '/') := by
  obtain ⟨f, rfl⟩ : ∃ f, fuel = f + 2 := ⟨fuel - 2, by omega⟩
  cases hp : l ++ ['*'] with
  | nil => simp at hp
  | cons p ps =>
    rw [matchLoop_succ, ← hp]
    simp only [scanChunk_plain l hl hne, matchChunk_plain l hl]
    by_cases hpre : l.isPrefixOf name = true
    · simp only [hpre, if_true]
      simp only [Bool.false_eq_true, false_and, if_false, Option.isSome_some, true_and,
        Option.getD_some]
      have : (some (List.drop l.length name) = some [] ∨ ['*'] ≠ []) := Or.inr (by simp)
      rw [if_pos this, matchLoop_succ]
      simp [scanChunk_star]
    · simp only [hpre]
      simp [checkRest, scanChunk_star, matchChunk, matchChunkLoop]

theorem filepath_Match_plain_star (l : List Char) (hl : plainChars l) (hne : l ≠ [])
    (name : String) :
    filepath.Match (String.mk (l ++ ['*'])) name =
      .ok (l.isPrefixOf name.toList && !(name.toList.drop l.length).contains '/') := by
  unfold filepath.Match
  apply matchLoop_plain_star l hl hne
  have : l.length ≠ 0 := by
    intro h; exact hne (List.length_eq_zero.mp h)
  simp [String.length]
  omega

/-! ## Lemmas on cleaned paths -/

theorem joinSlash_snoc (ys : List (List Char)) (a : List Char) :
    joinSlash (ys ++ [a]) = (if ys = [] then [] else joinSlash ys ++ ['/']) ++ a := by
  induction ys with
  | nil => simp [joinSlash]
  | cons y ys ih =>
    cases ys with
    | nil => simp [joinSlash]
    | cons z w =>
      rw [List.cons_append, List.cons_append, joinSlash, ← List.cons_append, ih]
      simp [joinSlash]

theorem splitOnChar_no_sep (sep : Char) (l : List Char) (h : sep ∉ l) :
    splitOnChar sep l = [l] := by
  induction l with
  | nil => rfl
  | cons c l ih =>
    simp only [List.mem_cons, not_or] at h
    have hc : ¬ c = sep := fun e => h.1 e.symm
    rw [splitOnChar, if_neg hc, ih h.2]

theorem splitOnChar_mem (sep : Char) (l el : List Char) (h : el ∈ splitOnChar sep l) :
    sep ∉ el := by
  induction l generalizing el with
  | nil =>
    simp only [splitOnChar, List.mem_singleton] at h
    subst h; simp
  | cons c l ih =>
    rw [splitOnChar] at h
    split_ifs at h with hc
    · rcases List.mem_cons.mp h with h | h
      · subst h; simp
      · exact ih el h
    · cases hs : splitOnChar sep l with
      | nil => exact absurd hs (splitOnChar_ne_nil sep l)
      | cons x t =>
        rw [hs] at h
        simp only at h
        rcases List.mem_cons.mp h with h | h
        · subst h
          have hx := ih x (by rw [hs]; simp)
          simp only [List.mem_cons, not_or]
          exact ⟨fun e => hc e.symm, hx⟩
        · exact ih el (by rw [hs]; simp [h])

theorem splitOnChar_joinSlash (ys : List (List Char)) (hne : ys ≠ [])
    (h : ∀ y ∈ ys, '/' ∉ y) : splitOnChar '/' (joinSlash ys) = ys := by
  induction ys with
  | nil => exact absurd rfl hne
  | cons y ys ih =>
    cases ys with
    | nil => simpa [joinSlash] using splitOnChar_no_sep '/' y (h y (by simp))
    | cons z w =>
      rw [joinSlash, splitOnChar_append, splitOnChar_no_sep '/' y (h y (by simp)),
        ih (by simp) (fun x hx => h x (by simp [hx]))]
      rfl

theorem cleanStep_skip (rooted : Bool) (st : List (List Char)) (el : List Char)
    (h : el = [] ∨ el = ['.']) : cleanStep rooted st el = st := by
  simp [cleanStep, h]

theorem cleanStep_dotdot_nil (rooted : Bool) :
    cleanStep rooted [] ['.', '.'] = if rooted then [] else [['.', '.']] := by
  simp [cleanStep]

theorem cleanStep_dotdot_cons (rooted : Bool) (top : List Char) (rest : List (List Char)) :
    cleanStep rooted (top :: rest) ['.', '.'] =
      if top = ['.', '.'] then ['.', '.'] :: top :: rest else rest := by
  simp [cleanStep]

theorem cleanStep_push (rooted : Bool) (st : List (List Char)) (el : List Char)
    (h1 : el ≠ []) (h2 : el ≠ ['.']) (h3 : el ≠ ['.', '.']) :
    cleanStep rooted st el = el :: st := by
  simp [cleanStep, h1, h2, h3]

theorem wellStacked_step (rooted : Bool) (st : List (List Char)) (el : List Char)
    (hst : wellStacked rooted st) (hel : '/' ∉ el) : wellStacked rooted (cleanStep rooted st el) := by
  by_cases h1 : el = [] ∨ el = ['.']
  · rw [cleanStep_skip rooted st el h1]
    exact hst
  · push_neg at h1
    by_cases h2 : el = ['.', '.']
    · subst h2
      cases st with
      | nil =>
        rw [cleanStep_dotdot_nil]
        cases rooted
        · exact ⟨by simp, by simp, by simp, fun _ => ⟨rfl, Or.inl rfl⟩, trivial⟩
        · trivial
      | cons top rest =>
        rw [cleanStep_dotdot_cons]
        by_cases ht : top = ['.', '.']
        · rw [if_pos ht]
          have hr := (hst.2.2.2.1 ht).1
          exact ⟨by simp, by simp, by simp, fun _ => ⟨hr, Or.inr (by simp [ht])⟩, hst⟩
        · rw [if_neg ht]
          exact hst.2.2.2.2
    · rw [cleanStep_push rooted st el h1.1 h1.2 h2]
      exact ⟨h1.1, h1.2, hel, fun e => absurd e h2, hst⟩

theorem wellStacked_foldl (rooted : Bool) (xs st : List (List Char))
    (hst : wellStacked rooted st) (hxs : ∀ el ∈ xs, '/' ∉ el) :
    wellStacked rooted (xs.foldl (cleanStep rooted) st) := by
  induction xs generalizing st with
  | nil => exact hst
  | cons x xs ih =>
    rw [List.foldl_cons]
    exact ih _ (wellStacked_step rooted st x hst (hxs x (by simp)))
      (fun el hel => hxs el (by simp [hel]))

/-- Cleaning the elements a cleaning has kept keeps them all. -/
theorem cleanStep_replay (rooted : Bool) (st : List (List Char)) (hst : wellStacked rooted st) :
    st.reverse.foldl (cleanStep rooted) [] = st := by
  induction st with
  | nil => rfl
  | cons top st ih =>
    obtain ⟨h1, h2, _, hdd, hrest⟩ := hst
    rw [List.reverse_cons, List.foldl_append, ih hrest]
    simp only [List.foldl_cons, List.foldl_nil]
    by_cases ht : top = ['.', '.']
    · obtain ⟨hr, hs⟩ := hdd ht
      subst ht
      cases st with
      | nil => rw [cleanStep_dotdot_nil, hr]; rfl
      | cons t rest =>
        rcases hs with hs | hs
        · cases hs
        · simp only [List.head?_cons, Option.some.injEq] at hs
          rw [cleanStep_dotdot_cons, if_pos hs]
    · exact cleanStep_push rooted st top h1 h2 ht

theorem dirOf_no_slash (f : List Char) (h : '/' ∉ f) : dirOf f = [] := by
  cases f with
  | nil => rfl
  | cons c cs =>
    simp only [List.mem_cons, not_or] at h
    have hc : ¬ c = '/' := fun e => h.1 e.symm
    simp [dirOf, h.2, hc]

/-- The directory part of a directory, given with its slash, followed by a
file name is the directory. -/
theorem dirOf_append (q f : List Char) (hq : q = [] ∨ ∃ s, q = s ++ ['/']) (hf : '/' ∉ f) :
    dirOf (q ++ f) = q := by
  induction q with
  | nil => simpa using dirOf_no_slash f hf
  | cons c q ih =>
    rcases hq with hq | ⟨s, hs⟩
    · cases hq
    · cases q with
      | nil =>
        have hc : c = '/' := by
          cases s with
          | nil => simpa using hs
          | cons x xs =>
            have := congrArg List.length hs
            simp at this
        simp [dirOf, hf, hc]
      | cons d q' =>
        have hs' : ∃ s', d :: q' = s' ++ ['/'] := by
          cases s with
          | nil => simp at hs
          | cons x xs =>
            simp only [List.cons_append, List.cons.injEq] at hs
            exact ⟨xs, hs.2⟩
        have hmem : '/' ∈ d :: q' ++ f := by
          obtain ⟨s', e⟩ := hs'
          rw [e]; simp
        rw [List.cons_append, dirOf, if_pos hmem, ih (Or.inr hs')]

/-- The file name of a path is settled by the path. -/
theorem last_component_unique (q1 n1 q2 n2 : List Char)
    (hq1 : q1 = [] ∨ ∃ s, q1 = s ++ ['/']) (hq2 : q2 = [] ∨ ∃ s, q2 = s ++ ['/'])
    (hn1 : '/' ∉ n1) (hn2 : '/' ∉ n2) (h : q1 ++ n1 = q2 ++ n2) : q1 = q2 ∧ n1 = n2 := by
  have e1 := dirOf_append q1 n1 hq1 hn1
  have e2 := dirOf_append q2 n2 hq2 hn2
  rw [h, e2] at e1
  subst e1
  exact ⟨rfl, List.append_cancel_left h⟩

theorem wellStacked_mem (rooted : Bool) (st : List (List Char)) (hst : wellStacked rooted st)
    (y : List Char) (hy : y ∈ st) : y ≠ [] ∧ y ≠ ['.'] ∧ '/' ∉ y := by
  induction st with
  | nil => simp at hy
  | cons top st ih =>
    rcases List.mem_cons.mp hy with h | h
    · subst h; exact ⟨hst.1, hst.2.1, hst.2.2.1⟩
    · exact ih hst.2.2.2.2 h

theorem joinSlash_head (y : List Char) (ys : List (List Char)) (hy : y ≠ []) :
    (joinSlash (y :: ys)).head? = y.head? := by
  cases y with
  | nil => exact absurd rfl hy
  | cons c cs => cases ys <;> simp [joinSlash]

theorem joinSlash_ne_nil (y : List Char) (ys : List (List Char)) (hy : y ≠ []) :
    joinSlash (y :: ys) ≠ [] := by
  intro h
  have := joinSlash_head y ys hy
  rw [h] at this
  cases y with
  | nil => exact hy rfl
  | cons c cs => simp at this

theorem joinSlash_ne_dot (y : List Char) (ys : List (List Char)) (hy : y ≠ [])
    (hd : y ≠ ['.']) : joinSlash (y :: ys) ≠ ['.'] := by
  cases ys with
  | nil => simpa [joinSlash] using hd
  | cons z w =>
    intro h
    have := congrArg List.length h
    cases y with
    | nil => exact hy rfl
    | cons c cs => simp [joinSlash] at this

/-- The value of `path.Clean` on a path that is not empty. -/
theorem clean_value (p : List Char) (hp : p ≠ []) :
    (path.Clean (String.mk p)).toList =
      if p.head? = some '/' then
        '/' :: joinSlash ((splitOnChar '/' p).foldl
          (cleanStep (decide (p.head? = some '/'))) []).reverse
      else if joinSlash ((splitOnChar '/' p).foldl
          (cleanStep (decide (p.head? = some '/'))) []).reverse = [] then ['.']
      else joinSlash ((splitOnChar '/' p).foldl
          (cleanStep (decide (p.head? = some '/'))) []).reverse := by
  have hne : String.mk p ≠ "" := by
    intro h
    exact hp (congrArg String.toList h)
  unfold path.Clean
  rw [if_neg hne]
  simp only [String.toList]
  split_ifs <;> rfl

/-- A directory joined with an ordinary name: the elements the cleaning keeps
of the directory, and then the name. -/
theorem join_ordinary (d : String) (n : List Char) (hd : d ≠ "") (hn : n ≠ [])
    (hdot : n ≠ ['.']) (hdd : n ≠ ['.', '.']) (hns : '/' ∉ n) :
    (path.Join [d, String.mk n]).toList =
      (if d.toList.head? = some '/' then ['/'] else []) ++
        joinSlash (((splitOnChar '/' d.toList).foldl
          (cleanStep (decide (d.toList.head? = some '/'))) []).reverse ++ [n]) := by
  have hdl : d.toList ≠ [] := fun h => hd (String.ext h)
  have hnm : String.mk n ≠ "" := fun h => hn (congrArg String.toList h)
  have hj : joinNonEmpty [d, String.mk n] = String.mk (d.toList ++ '/' :: n) := by
    apply String.ext
    simp [joinNonEmpty, hd, hnm, String.data_append]
  have hjne : joinNonEmpty [d, String.mk n] ≠ "" := by
    rw [hj]
    intro h
    have := congrArg String.toList h
    simp at this
  have hhead : (d.toList ++ '/' :: n).head? = d.toList.head? := by
    cases hdd' : d.toList with
    | nil => exact absurd hdd' hdl
    | cons c cs => rfl
  unfold path.Join
  rw [if_neg hjne, hj, clean_value _ (by simp), hhead, splitOnChar_append,
    splitOnChar_no_sep '/' n hns, List.foldl_append]
  simp only [List.foldl_cons, List.foldl_nil]
  rw [cleanStep_push _ _ n hn hdot hdd, List.reverse_cons]
  have hb : joinSlash ((List.foldl (cleanStep (decide (d.toList.head? = some '/'))) []
      (splitOnChar '/' d.toList)).reverse ++ [n]) ≠ [] := by
    rw [joinSlash_snoc]
    simp [hn]
  split_ifs <;> rfl

/-- An ordinary name joined to nothing is the name. -/
theorem join_empty_ordinary (n : List Char) (hn : n ≠ []) (hdot : n ≠ ['.'])
    (hdd : n ≠ ['.', '.']) (hns : '/' ∉ n) : (path.Join ["", String.mk n]).toList = n := by
  have hnm : String.mk n ≠ "" := fun h => hn (congrArg String.toList h)
  have hj : joinNonEmpty ["", String.mk n] = String.mk n := by
    simp [joinNonEmpty, hnm]
  have hh : ¬ n.head? = some '/' := by
    intro h
    cases n with
    | nil => simp at h
    | cons c cs =>
      simp only [List.head?_cons, Option.some.injEq] at h
      exact hns (by simp [h])
  unfold path.Join
  rw [hj, if_neg hnm, clean_value n hn, if_neg hh, splitOnChar_no_sep '/' n hns]
  simp only [List.foldl_cons, List.foldl_nil]
  rw [cleanStep_push _ _ n hn hdot hdd]
  simp [joinSlash, hn]

/-- Whatever the directory, the path joined from it and an ordinary name ends
in the name, after a slash or alone. -/
theorem join_last_component (d : String) (n : List Char) (hn : n ≠ []) (hdot : n ≠ ['.'])
    (hdd : n ≠ ['.', '.']) (hns : '/' ∉ n) :
    ∃ q, (path.Join [d, String.mk n]).toList = q ++ n ∧ (q = [] ∨ ∃ s, q = s ++ ['/']) := by
  by_cases hd : d = ""
  · subst hd
    exact ⟨[], by simpa using join_empty_ordinary n hn hdot hdd hns, Or.inl rfl⟩
  · rw [join_ordinary d n hd hn hdot hdd hns, joinSlash_snoc]
    generalize (List.foldl (cleanStep (decide (d.toList.head? = some '/'))) []
      (splitOnChar '/' d.toList)).reverse = ys
    by_cases hr : d.toList.head? = some '/'
    · rw [if_pos hr]
      by_cases hs : ys = []
      · rw [if_pos hs]
        exact ⟨['/'], by simp, Or.inr ⟨[], rfl⟩⟩
      · rw [if_neg hs]
        exact ⟨['/'] ++ (joinSlash ys ++ ['/']), by simp, Or.inr ⟨['/'] ++ joinSlash ys, by simp⟩⟩
    · rw [if_neg hr]
      by_cases hs : ys = []
      · rw [if_pos hs]
        exact ⟨[], by simp, Or.inl rfl⟩
      · rw [if_neg hs]
        exact ⟨joinSlash ys ++ ['/'], by simp, Or.inr ⟨_, rfl⟩⟩

theorem join_root (n : List Char) (hn : n ≠ []) (hdot : n ≠ ['.']) (hdd : n ≠ ['.', '.'])
    (hns : '/' ∉ n) : (path.Join ["/", String.mk n]).toList = '/' :: n := by
  rw [join_ordinary "/" n (by decide) hn hdot hdd hns]
  have h1 : ("/" : String).toList = ['/'] := rfl
  rw [h1]
  simp [splitOnChar, cleanStep, joinSlash]

theorem join_dot (n : List Char) (hn : n ≠ []) (hdot : n ≠ ['.']) (hdd : n ≠ ['.', '.'])
    (hns : '/' ∉ n) : (path.Join [".", String.mk n]).toList = n := by
  rw [join_ordinary "." n (by decide) hn hdot hdd hns]
  have h1 : (".": String).toList = ['.'] := rfl
  rw [h1]
  simp [splitOnChar, cleanStep, joinSlash]

/-- A cleaned directory joined with an ordinary name is the directory, a slash
and the name. -/
theorem join_cleaned (rooted : Bool) (st : List (List Char)) (hst : wellStacked rooted st)
    (hne : st ≠ []) (n : List Char) (hn : n ≠ []) (hdot : n ≠ ['.']) (hdd : n ≠ ['.', '.'])
    (hns : '/' ∉ n) :
    (path.Join [String.mk ((if rooted then ['/'] else []) ++ joinSlash st.reverse),
      String.mk n]).toList =
      ((if rooted then ['/'] else []) ++ joinSlash st.reverse) ++ '/' :: n ∧
    String.mk ((if rooted then ['/'] else []) ++ joinSlash st.reverse) ≠ "." ∧
    String.mk ((if rooted then ['/'] else []) ++ joinSlash st.reverse) ≠ "/" ∧
    (if rooted then ['/'] else []) ++ joinSlash st.reverse ≠ [] := by
  obtain ⟨y, ys, hys⟩ : ∃ y ys, st.reverse = y :: ys := by
    cases h : st.reverse with
    | nil => exact absurd (List.reverse_eq_nil_iff.mp h) hne
    | cons y ys => exact ⟨y, ys, rfl⟩
  have hmem : ∀ z ∈ st.reverse, z ≠ [] ∧ z ≠ ['.'] ∧ '/' ∉ z := fun z hz =>
    wellStacked_mem rooted st hst z (List.mem_reverse.mp hz)
  have hy := hmem y (by rw [hys]; simp)
  have hjne : joinSlash st.reverse ≠ [] := by rw [hys]; exact joinSlash_ne_nil y ys hy.1
  have hhead : (joinSlash st.reverse).head? ≠ some '/' := by
    rw [hys, joinSlash_head y ys hy.1]
    intro h
    cases y with
    | nil => simp at h
    | cons c cs =>
      simp only [List.head?_cons, Option.some.injEq] at h
      exact hy.2.2 (by simp [h])
  have hsplit : splitOnChar '/' (joinSlash st.reverse) = st.reverse :=
    splitOnChar_joinSlash st.reverse (by rw [hys]; simp) (fun z hz => (hmem z hz).2.2)
  cases rooted with
  | true =>
    simp only [if_true]
    have hR : String.mk (['/'] ++ joinSlash st.reverse) ≠ "" := by
      intro h; have := congrArg String.toList h; simp at this
    refine ⟨?_, ?_, ?_, by simp⟩
    · rw [join_ordinary _ n hR hn hdot hdd hns]
      simp only [String.toList, List.singleton_append, List.head?_cons, decide_True, if_true]
      rw [splitOnChar, if_pos rfl, hsplit, List.foldl_cons, cleanStep_skip _ _ _ (Or.inl rfl),
        cleanStep_replay true st hst, joinSlash_snoc, if_neg (by rw [hys]; simp)]
      simp
    · intro h
      have := congrArg String.toList h
      simp at this
    · intro h
      have := congrArg String.toList h
      simp at this
      exact hjne this
  | false =>
    simp only [Bool.false_eq_true, if_false, List.nil_append]
    have hR : String.mk (joinSlash st.reverse) ≠ "" := by
      intro h; exact hjne (congrArg String.toList h)
    refine ⟨?_, ?_, ?_, hjne⟩
    · rw [join_ordinary _ n hR hn hdot hdd hns]
      simp only [String.toList]
      rw [if_neg hhead, hsplit]
      simp only [hhead, decide_False]
      rw [cleanStep_replay false st hst, joinSlash_snoc, if_neg (by rw [hys]; simp)]
      simp
    · intro h
      have := congrArg String.toList h
      simp only [String.toList] at this
      rw [hys] at this
      exact joinSlash_ne_dot y ys hy.1 hy.2.1 this
    · intro h
      have := congrArg String.toList h
      simp only [String.toList] at this
      rw [this] at hhead
      exact hhead rfl

/-- The layout of a path joined from a directory and the file name `app.json`:
the cleaned directory with its slash and then the name; to the directory part
of it, taken as Go's `Glob` takes it, an ordinary name is joined by writing it
after the slash. -/
theorem join_layout (dataDir : String) :
    ∃ (q : List Char) (dir : String),
      (path.Join [dataDir, "app.json"]).toList = q ++ "app.json".toList ∧
      (q = [] ∨ ∃ s, q = s ++ ['/']) ∧
      cleanGlobPath (String.mk q) = dir ∧
      dirBase dir = q ∧
      (∀ c ∈ dir.toList, c ∈ q ∨ c = '.') ∧
      ∀ n : List Char, n ≠ [] → n ≠ ['.'] → n ≠ ['.', '.'] → '/' ∉ n →
        (path.Join [dir, String.mk n]).toList = q ++ n := by
  have happ : ("app.json" : String) = String.mk "app.json".toList := rfl
  have dotcase : ∀ l : List Char, l = "app.json".toList →
      (path.Join [dataDir, "app.json"]).toList = l →
      ∃ (q : List Char) (dir : String),
        (path.Join [dataDir, "app.json"]).toList = q ++ "app.json".toList ∧
        (q = [] ∨ ∃ s, q = s ++ ['/']) ∧
        cleanGlobPath (String.mk q) = dir ∧
        dirBase dir = q ∧
        (∀ c ∈ dir.toList, c ∈ q ∨ c = '.') ∧
        ∀ n : List Char, n ≠ [] → n ≠ ['.'] → n ≠ ['.', '.'] → '/' ∉ n →
          (path.Join [dir, String.mk n]).toList = q ++ n := by
    intro l hl h
    refine ⟨[], ".", by rw [h, hl]; rfl, Or.inl rfl, by decide, by decide, ?_, ?_⟩
    · intro c hc
      right
      have : (".": String).toList = ['.'] := rfl
      rw [this] at hc
      simpa using hc
    · intro n hn hdot hdd hns
      simpa using join_dot n hn hdot hdd hns
  by_cases hD : dataDir = ""
  · subst hD
    apply dotcase _ rfl
    rw [happ]
    exact join_empty_ordinary _ (by decide) (by decide) (by decide) (by decide)
  · have hj := join_ordinary dataDir "app.json".toList hD (by decide) (by decide) (by decide)
      (by decide)
    rw [← happ] at hj
    have hst : wellStacked (decide (dataDir.toList.head? = some '/'))
        ((splitOnChar '/' dataDir.toList).foldl
          (cleanStep (decide (dataDir.toList.head? = some '/'))) []) :=
      wellStacked_foldl _ _ [] trivial (fun el hel => splitOnChar_mem '/' _ el hel)
    generalize hstdef : (splitOnChar '/' dataDir.toList).foldl
      (cleanStep (decide (dataDir.toList.head? = some '/'))) [] = st at hj hst
    rw [joinSlash_snoc] at hj
    by_cases hne : st = []
    · subst hne
      simp only [List.reverse_nil, if_true, List.nil_append] at hj
      by_cases hr : dataDir.toList.head? = some '/'
      · rw [if_pos hr] at hj
        refine ⟨['/'], "/", by rw [hj], Or.inr ⟨[], rfl⟩, by decide, by decide, ?_, ?_⟩
        · intro c hc
          left
          exact hc
        · intro n hn hdot hdd hns
          simpa using join_root n hn hdot hdd hns
      · rw [if_neg hr] at hj
        exact dotcase _ rfl (by simpa using hj)
    · have hrev : st.reverse ≠ [] := fun h => hne (List.reverse_eq_nil_iff.mp h)
      rw [if_neg hrev] at hj
      have hdr : (if dataDir.toList.head? = some '/' then ['/'] else ([] : List Char)) =
          (if decide (dataDir.toList.head? = some '/') = true then ['/'] else []) := by
        by_cases hr : dataDir.toList.head? = some '/' <;> simp [hr]
      rw [hdr] at hj
      generalize decide (dataDir.toList.head? = some '/') = rooted at hj hst
      refine ⟨((if rooted = true then ['/'] else []) ++ joinSlash st.reverse) ++ ['/'],
        String.mk ((if rooted = true then ['/'] else []) ++ joinSlash st.reverse),
        by rw [hj]; simp, Or.inr ⟨_, rfl⟩, ?_, ?_, ?_, ?_⟩
      · have h4 := (join_cleaned rooted st hst hne "app.json".toList (by decide) (by decide)
          (by decide) (by decide)).2.2.2
        unfold cleanGlobPath
        have e1 : String.mk (((if rooted = true then ['/'] else []) ++ joinSlash st.reverse) ++
            ['/']) ≠ "" := by
          intro h; have := congrArg String.toList h; simp at this
        have e2 : String.mk (((if rooted = true then ['/'] else []) ++ joinSlash st.reverse) ++
            ['/']) ≠ "/" := by
          intro h
          have := congrArg String.toList h
          have h5 : ("/" : String).toList = [] ++ ['/'] := rfl
          rw [h5] at this
          exact h4 (List.append_cancel_right this)
        rw [if_neg e1, if_neg e2]
        simp [String.toList]
      · have h := join_cleaned rooted st hst hne "app.json".toList (by decide) (by decide)
          (by decide) (by decide)
        unfold dirBase
        rw [if_neg h.2.1, if_neg h.2.2.1]
        rfl
      · intro c hc
        left
        simp only [String.toList] at hc
        exact List.mem_append_left _ hc
      · intro n hn hdot hdd hns
        rw [(join_cleaned rooted st hst hne n hn hdot hdd hns).1]
        simp

/-! ## Lemmas on the search for staged files -/

theorem globWithLimit_succ (fs : FS) (limit : Nat) (pattern : String) :
    globWithLimit fs (limit + 1) pattern =
      match filepath.Match pattern "" with
      | .error e => .error e
      | .ok _ =>
        if hasMeta pattern = false then
          if common.FileExists fs pattern ∨ fs.isDir pattern = true then .ok [pattern] else .ok []
        else if hasMeta (cleanGlobPath (filepath.Split pattern).1) = false then
          filepath.glob fs (cleanGlobPath (filepath.Split pattern).1) (filepath.Split pattern).2 []
        else if cleanGlobPath (filepath.Split pattern).1 = pattern then .error ErrBadPattern
        else
          match globWithLimit fs limit (cleanGlobPath (filepath.Split pattern).1) with
          | .error e => .error e
          | .ok m => globDirs fs (filepath.Split pattern).2 m [] := by
  rw [globWithLimit]

theorem hasMeta_pattern (c : String) : hasMeta (c ++ ".*") = true := by
  simp [hasMeta, String.toList, String.data_append]

/-- The cleanup pattern splits into the directory of the canonical document
and the pattern `app.json.*`. -/
theorem Split_pattern (c : String) (q : List Char) (hc : c.toList = q ++ "app.json".toList)
    (hq : q = [] ∨ ∃ s, q = s ++ ['/']) :
    filepath.Split (c ++ ".*") = (String.mk q, "app.json.*") := by
  have h1 : (c ++ ".*").toList = q ++ "app.json.*".toList := by
    simp only [String.toList, String.data_append] at hc ⊢
    rw [hc, List.append_assoc]
    rfl
  unfold filepath.Split
  rw [h1, dirOf_append q _ hq (by decide)]
  simp

theorem globNames_mem (dir pattern : String) (names found res : List String)
    (h : globNames dir pattern names found = .ok res) (p : String) (hp : p ∈ res) :
    p ∈ found ∨ ∃ n, filepath.Match pattern n = .ok true ∧ p = path.Join [dir, n] := by
  induction names generalizing found with
  | nil =>
    simp only [globNames, Except.ok.injEq] at h
    subst h
    exact Or.inl hp
  | cons n names ih =>
    rw [globNames] at h
    cases hm : filepath.Match pattern n with
    | error e => rw [hm] at h; cases h
    | ok matched =>
      rw [hm] at h
      simp only at h
      rcases ih _ h with h1 | h1
      · cases matched with
        | false => exact Or.inl (by simpa using h1)
        | true =>
          simp only [if_true, List.mem_append, List.mem_singleton] at h1
          rcases h1 with h1 | h1
          · exact Or.inl h1
          · exact Or.inr ⟨n, hm, h1⟩
      · exact Or.inr h1

theorem globDirs_mem (fs : FS) (pattern : String) (dirs found res : List String)
    (h : globDirs fs pattern dirs found = .ok res) (p : String) (hp : p ∈ res) :
    p ∈ found ∨ ∃ d n, filepath.Match pattern n = .ok true ∧ p = path.Join [d, n] := by
  induction dirs generalizing found with
  | nil =>
    simp only [globDirs, Except.ok.injEq] at h
    subst h
    exact Or.inl hp
  | cons d dirs ih =>
    rw [globDirs] at h
    cases hg : filepath.glob fs d pattern found with
    | error e => rw [hg] at h; cases h
    | ok found1 =>
      rw [hg] at h
      simp only at h
      rcases ih _ h with h1 | h1
      · rcases globNames_mem d pattern _ found found1 hg p h1 with h2 | ⟨n, hn, e⟩
        · exact Or.inl h2
        · exact Or.inr ⟨d, n, hn, e⟩
      · exact Or.inr h1

/-- The names that match `app.json.*`: `app.json.` and then anything without a
separator. -/
theorem Match_staged (n : String) :
    filepath.Match "app.json.*" n =
      .ok ("app.json.".toList.isPrefixOf n.toList &&
        !(n.toList.drop "app.json.".toList.length).contains '/') := by
  have h : ("app.json.*" : String) = String.mk ("app.json.".toList ++ ['*']) := by decide
  rw [h]
  exact filepath_Match_plain_star _ (by unfold plainChars; decide) (by decide) n

theorem Match_staged_true (n : String) (h : filepath.Match "app.json.*" n = .ok true) :
    ∃ r, n.toList = "app.json.".toList ++ r ∧ '/' ∉ r := by
  rw [Match_staged] at h
  simp only [Except.ok.injEq, Bool.and_eq_true, Bool.not_eq_true'] at h
  obtain ⟨h1, h2⟩ := h
  rw [List.isPrefixOf_iff_prefix] at h1
  obtain ⟨r, hr⟩ := h1
  refine ⟨r, hr.symm, ?_⟩
  rw [← hr] at h2
  simpa using h2

/-- Each path the cleanup pattern finds is a directory joined with a name that
starts with `app.json.`. -/
theorem Glob_mem_form (fs : FS) (c : String) (q : List Char)
    (hc : c.toList = q ++ "app.json".toList) (hq : q = [] ∨ ∃ s, q = s ++ ['/'])
    (files : List String) (h : filepath.Glob fs (c ++ ".*") = .ok files) (p : String)
    (hp : p ∈ files) :
    ∃ d n, filepath.Match "app.json.*" n = .ok true ∧ p = path.Join [d, n] := by
  unfold filepath.Glob at h
  rw [show (10000 : Nat) = 9999 + 1 from rfl, globWithLimit_succ, Split_pattern c q hc hq,
    hasMeta_pattern] at h
  cases hm : filepath.Match (c ++ ".*") "" with
  | error e => rw [hm] at h; cases h
  | ok b =>
    rw [hm] at h
    simp only [Bool.true_eq_false, if_false] at h
    split_ifs at h with h1 h2
    · rcases globNames_mem _ _ _ _ _ h p hp with h3 | ⟨n, hn, e⟩
      · simp at h3
      · exact ⟨_, n, hn, e⟩
    · cases hg : globWithLimit fs 9999 (cleanGlobPath (String.mk q)) with
      | error e => rw [hg] at h; cases h
      | ok m =>
        rw [hg] at h
        rcases globDirs_mem fs _ m [] files h p hp with h3 | h3
        · simp at h3
        · exact h3

/-- The cleanup pattern never finds the canonical document. -/
theorem Glob_ne_canonical (fs : FS) (dataDir : String) (files : List String)
    (h : filepath.Glob fs (path.Join [dataDir, "app.json"] ++ ".*") = .ok files) :
    path.Join [dataDir, "app.json"] ∉ files := by
  intro hp
  obtain ⟨q, dir, hc, hq, _⟩ := join_layout dataDir
  obtain ⟨d, n, hn, e⟩ := Glob_mem_form fs _ q hc hq files h _ hp
  obtain ⟨r, hr, hslash⟩ := Match_staged_true n hn
  have hn1 : n.toList ≠ [] := by rw [hr]; simp
  have hn2 : n.toList ≠ ['.'] := by
    rw [hr]; intro h; have := congrArg List.length h; simp at this
  have hn3 : n.toList ≠ ['.', '.'] := by
    rw [hr]; intro h; have := congrArg List.length h; simp at this
  have hn4 : '/' ∉ n.toList := by
    rw [hr]
    intro h
    rcases List.mem_append.mp h with h | h
    · revert h; decide
    · exact hslash h
  obtain ⟨q', hq', hq'2⟩ := join_last_component d n.toList hn1 hn2 hn3 hn4
  have hmk : String.mk n.toList = n := rfl
  rw [hmk, ← e, hc] at hq'
  have := (last_component_unique q _ q' _ hq hq'2 (by decide) hn4 hq').2
  rw [hr] at this
  have hl := congrArg List.length this
  simp at hl

theorem Match_stagedName (n : String) : filepath.Match "app.json.*" n = .ok (stagedName n) :=
  Match_staged n

theorem globNames_total (dir pattern : String) (f : String → Bool)
    (hf : ∀ n, filepath.Match pattern n = .ok (f n)) (names found : List String) :
    globNames dir pattern names found =
      .ok (found ++ (names.filter f).map (fun n => path.Join [dir, n])) := by
  induction names generalizing found with
  | nil => simp [globNames]
  | cons n names ih =>
    rw [globNames, hf n]
    simp only
    rw [ih]
    cases hfn : f n <;> simp [List.filter_cons, hfn]

theorem plainChars_of_hasMeta (s : String) (h : hasMeta s = false) : plainChars s.toList := by
  intro c hc
  unfold hasMeta at h
  rw [List.any_eq_false] at h
  have := h c hc
  simpa [not_or] using this

theorem hasMeta_of_plainChars (s : String) (h : plainChars s.toList) : hasMeta s = false := by
  unfold hasMeta
  rw [List.any_eq_false]
  intro c hc
  have := h c hc
  simp [this.1, this.2.1, this.2.2.1, this.2.2.2]

/-- For a canonical path of plain characters the cleanup pattern finds the
entries of the data directory whose names start with `app.json.`. -/
theorem Glob_plain (fs : FS) (c : String) (q : List Char) (dir : String)
    (hc : c.toList = q ++ "app.json".toList) (hq : q = [] ∨ ∃ s, q = s ++ ['/'])
    (hdir : cleanGlobPath (String.mk q) = dir) (hchars : ∀ x ∈ dir.toList, x ∈ q ∨ x = '.')
    (hmeta : hasMeta c = false) :
    filepath.Glob fs (c ++ ".*") =
      .ok (((fs.readdir dir).filter stagedName).map (fun n => path.Join [dir, n])) := by
  have hplain := plainChars_of_hasMeta c hmeta
  have hpat : c ++ ".*" = String.mk ((c.toList ++ ['.']) ++ ['*']) := by
    apply String.ext
    simp [String.data_append]
  have hpl : plainChars (c.toList ++ ['.']) := by
    intro x hx
    rcases List.mem_append.mp hx with hx | hx
    · exact hplain x hx
    · simp only [List.mem_singleton] at hx
      subst hx
      unfold backslash
      decide
  have hmatch : filepath.Match (c ++ ".*") "" = .ok false := by
    rw [hpat, filepath_Match_plain_star _ hpl (by simp)]
    have : ("" : String).toList = [] := rfl
    rw [this]
    simp
  have hdm : hasMeta dir = false := by
    apply hasMeta_of_plainChars
    intro x hx
    rcases hchars x hx with h | h
    · exact hplain x (by rw [hc]; exact List.mem_append_left _ h)
    · subst h
      unfold backslash
      decide
  unfold filepath.Glob
  rw [show (10000 : Nat) = 9999 + 1 from rfl, globWithLimit_succ, Split_pattern c q hc hq,
    hasMeta_pattern, hmatch]
  simp only [Bool.true_eq_false, if_false, hdir, hdm, if_true]
  unfold filepath.glob
  rw [globNames_total dir "app.json.*" stagedName Match_stagedName]
  simp

theorem takeWhile_name (n tail : List Char) (hn : '/' ∉ n)
    (ht : tail = [] ∨ ∃ v, tail = '/' :: v) :
    (n ++ tail).takeWhile (fun c => decide (c ≠ '/')) = n := by
  induction n with
  | nil =>
    rcases ht with rfl | ⟨v, rfl⟩ <;> simp [List.takeWhile]
  | cons x n ih =>
    simp only [List.mem_cons, not_or] at hn
    have hx : x ≠ '/' := fun e => hn.1 e.symm
    simpa [List.takeWhile_cons, hx] using ih hn.2

/-- A file in or below an entry of a directory puts the entry into what
reading the directory gives. -/
theorem mem_readdir (fs : FS) (dir k : String) (n tail : List Char)
    (hk : fs.read k ≠ none) (hkn : k.toList = dirBase dir ++ n ++ tail)
    (hn1 : n ≠ []) (hn2 : n ≠ ['.']) (hn3 : n ≠ ['.', '.']) (hn4 : '/' ∉ n)
    (ht : tail = [] ∨ ∃ v, tail = '/' :: v) : String.mk n ∈ fs.readdir dir := by
  rw [FS.read_ne_none_iff, List.mem_map] at hk
  obtain ⟨e, he, rfl⟩ := hk
  unfold FS.readdir
  rw [(List.perm_insertionSort _ _).mem_iff, List.mem_dedup, List.mem_map]
  refine ⟨n, ?_, rfl⟩
  rw [List.mem_filter]
  refine ⟨?_, by simp [hn1, hn2, hn3]⟩
  rw [List.mem_filterMap]
  refine ⟨e, he, ?_⟩
  unfold entryName
  have hp : (dirBase dir).isPrefixOf e.1.toList = true := by
    rw [List.isPrefixOf_iff_prefix, hkn, List.append_assoc]
    exact List.prefix_append _ _
  rw [if_pos hp, hkn, List.append_assoc, List.drop_left, takeWhile_name n tail hn4 ht]

/-! ## Lemmas on Stage -/

theorem TriggerCorePostExtract_eq (env : Env) (fs : FS) (appName sourceWorkDir : String) :
    TriggerCorePostExtract env fs appName sourceWorkDir =
      match filepath.Glob fs (common.GetAppJSONPath env appName ++ ".*") with
      | .error e => ⟨fs, some e⟩
      | .ok files =>
        if (removeFiles env files fs).err = none then
          stageDocument env (removeFiles env files fs).fs appName sourceWorkDir
        else removeFiles env files fs := by
  unfold TriggerCorePostExtract
  simp only
  cases filepath.Glob fs (common.GetAppJSONPath env appName ++ ".*") with
  | error e => rfl
  | ok files =>
    simp only
    rcases hr : removeFiles env files fs with ⟨fs1, _ | e⟩
    · simp
    · simp

theorem stagedName_iff (n : String) :
    stagedName n = true ↔ ∃ r, n.toList = "app.json.".toList ++ r ∧ '/' ∉ r := by
  constructor
  · intro h
    exact Match_staged_true n (by rw [Match_stagedName, h])
  · rintro ⟨r, hr, hs⟩
    unfold stagedName
    rw [hr]
    simp [hs]

theorem stagedName_ordinary (n : String) (h : stagedName n = true) :
    n.toList ≠ [] ∧ n.toList ≠ ['.'] ∧ n.toList ≠ ['.', '.'] ∧ '/' ∉ n.toList := by
  obtain ⟨r, hr, hs⟩ := (stagedName_iff n).mp h
  rw [hr]
  refine ⟨by simp, ?_, ?_, ?_⟩
  · intro h; have := congrArg List.length h; simp at this
  · intro h; have := congrArg List.length h; simp at this
  · intro h
    rcases List.mem_append.mp h with h | h
    · revert h; decide
    · exact hs h

/-- After a cleanup loop that succeeded, for a canonical path of plain
characters, there is no file whose path is the canonical path followed by a
dot and anything. -/
theorem cleanup_staged (env : Env) (fs : FS) (dataDir : String) (r : List Char)
    (files : List String)
    (hmeta : hasMeta (path.Join [dataDir, "app.json"]) = false)
    (hg : filepath.Glob fs (path.Join [dataDir, "app.json"] ++ ".*") = .ok files)
    (hok : (removeFiles env files fs).err = none) :
    (removeFiles env files fs).fs.read
      (String.mk ((path.Join [dataDir, "app.json"]).toList ++ '.' :: r)) = none := by
  obtain ⟨q, dir, hc, hq, hdir, hbase, hchars, hjoin⟩ := join_layout dataDir
  rw [Glob_plain fs _ q dir hc hq hdir hchars hmeta] at hg
  simp only [Except.ok.injEq] at hg
  have hfiles : ∀ f ∈ files, ∃ n : String, stagedName n = true ∧ f.toList = q ++ n.toList := by
    intro f hf
    rw [← hg, List.mem_map] at hf
    obtain ⟨n, hn, rfl⟩ := hf
    have hs := (List.mem_filter.mp hn).2
    obtain ⟨h1, h2, h3, h4⟩ := stagedName_ordinary n hs
    exact ⟨n, hs, hjoin n.toList h1 h2 h3 h4⟩
  have hin : ∀ (u tail : List Char) (k : String), '/' ∉ u →
      (tail = [] ∨ ∃ v, tail = '/' :: v) → fs.read k ≠ none →
      k.toList = q ++ ("app.json.".toList ++ u) ++ tail →
      String.mk (q ++ ("app.json.".toList ++ u)) ∈ files := by
    intro u tail k hu ht hk hkl
    have hst : stagedName (String.mk ("app.json.".toList ++ u)) = true :=
      (stagedName_iff _).mpr ⟨u, rfl, hu⟩
    obtain ⟨h1, h2, h3, h4⟩ := stagedName_ordinary _ hst
    have hmem := mem_readdir fs dir k ("app.json.".toList ++ u) tail hk (by rw [hbase]; exact hkl)
      h1 h2 h3 h4 ht
    rw [← hg, List.mem_map]
    refine ⟨String.mk ("app.json.".toList ++ u), List.mem_filter.mpr ⟨hmem, hst⟩, ?_⟩
    exact String.ext (hjoin _ h1 h2 h3 h4)
  have hshape : (path.Join [dataDir, "app.json"]).toList ++ '.' :: r =
      q ++ ("app.json.".toList ++ r) := by
    rw [hc, List.append_assoc]
    rfl
  rw [hshape]
  by_cases hp : fs.read (String.mk (q ++ ("app.json.".toList ++ r))) = none
  · exact removeFiles_absent env _ fs _ hp
  · by_cases hs : '/' ∈ r
    · exfalso
      obtain ⟨u, v, huv, hu⟩ := first_slash r hs
      have hkq : (String.mk (q ++ ("app.json.".toList ++ r))).toList =
          (String.mk (q ++ ("app.json.".toList ++ u))).toList ++ '/' :: v := by
        simp [String.toList, huv]
      have hqf := hin u ('/' :: v) _ hu (Or.inr ⟨v, rfl⟩) hp (by simp [String.toList, huv])
      have hkf : String.mk (q ++ ("app.json.".toList ++ r)) ∉ files := by
        intro h
        obtain ⟨n, hn, e⟩ := hfiles _ h
        have h4 := (stagedName_ordinary n hn).2.2.2
        have e' : "app.json.".toList ++ r = n.toList := List.append_cancel_left e
        rw [← e', huv] at h4
        exact h4 (by simp)
      exact removeFiles_blocked env files fs _ _ v hqf hp hkf hkq hok
    · have hpf := hin r [] _ hs (Or.inl rfl) hp (by simp [String.toList])
      exact removeFiles_removed env files fs _ hok hpf

/-- With a character class in the name of the app the cleanup of Stage removes
a staged file of another app. -/
theorem cleanup_reaches_other_app :
    inDataDir envWeb "a[b]c" "/data/abc/app.json.3" = false ∧
    fsOther.read "/data/abc/app.json.3" = some "other" ∧
    (TriggerCorePostExtract envWeb fsOther "a[b]c" "/src").fs.read "/data/abc/app.json.3" = none := by
  decide

/-! ## Lemmas on trimming and reading -/

theorem trim_layout (p : Char → Bool) (l : List Char) :
    ∃ pre post, l = pre ++ ((l.dropWhile p).reverse.dropWhile p).reverse ++ post ∧
      (∀ c ∈ pre, p c = true) ∧ (∀ c ∈ post, p c = true) := by
  refine ⟨l.takeWhile p, ((l.dropWhile p).reverse.takeWhile p).reverse, ?_, ?_, ?_⟩
  · have h := List.takeWhile_append_dropWhile p (l.dropWhile p).reverse
    have h2 := congrArg List.reverse h
    rw [List.reverse_append, List.reverse_reverse] at h2
    rw [List.append_assoc, h2, List.takeWhile_append_dropWhile]
  · intro c hc
    exact List.mem_takeWhile_imp hc
  · intro c hc
    exact List.mem_takeWhile_imp (List.mem_reverse.mp hc)

theorem trim_head (p : Char → Bool) (l : List Char) (c : Char)
    (h : (((l.dropWhile p).reverse.dropWhile p).reverse).head? = some c) : p c = false := by
  have hpre : ((l.dropWhile p).reverse.dropWhile p).reverse <+: l.dropWhile p :=
    List.rdropWhile_prefix p (l.dropWhile p)
  obtain ⟨t, ht⟩ := hpre
  have hd := List.head?_dropWhile_not p l
  cases hout : ((l.dropWhile p).reverse.dropWhile p).reverse with
  | nil => rw [hout] at h; cases h
  | cons x xs =>
    rw [hout] at h ht
    simp only [List.head?_cons, Option.some.injEq] at h
    subst h
    rw [← ht] at hd
    simpa using hd

theorem trim_last (p : Char → Bool) (l : List Char) (c : Char)
    (h : (((l.dropWhile p).reverse.dropWhile p).reverse).getLast? = some c) : p c = false := by
  rw [List.getLast?_reverse] at h
  have hd := List.head?_dropWhile_not p (l.dropWhile p).reverse
  rw [h] at hd
  simpa using hd

theorem trim_blank (p : Char → Bool) (l : List Char) (h : ∀ c ∈ l, p c = true) :
    ((l.dropWhile p).reverse.dropWhile p).reverse = [] := by
  rw [List.dropWhile_eq_nil_iff.mpr h]
  rfl

/-- A document of white space only is trimmed to the empty string. -/
theorem TrimSpace_blank (b : String) (h : ∀ c ∈ b.toList, unicode.IsSpace c = true) :
    strings.TrimSpace b = "" := by
  unfold strings.TrimSpace
  rw [trim_blank unicode.IsSpace b.toList h]

theorem os_ReadFile_ok (env : Env) (fs : FS) (p b : String) (h : os.ReadFile env fs p = .ok b) :
    fs.read p = some b := by
  unfold os.ReadFile at h
  by_cases hf : env.fault (.readFile p) = true
  · rw [if_pos hf] at h; cases h
  · rw [if_neg hf] at h
    by_cases hd : fs.isDir p = true
    · rw [if_pos hd] at h; cases h
    · rw [if_neg hd] at h
      cases hr : fs.read p with
      | none => rw [hr] at h; cases h
      | some c => rw [hr] at h; cases h; rfl

/-! ## The claims -/

/-! ### C1: mutual exclusion after staging -/

/-- Claim C1 fails as stated: for the app `a[b]c` the cleanup pattern
`/data/a[b]c/app.json.*` holds a character class, so the search goes through
`/data/abc` and the missing-marker an earlier attempt of process 7 left is not
found; Stage succeeds, stages the document, and the document and the marker
both exist afterwards. -/
theorem stage_keeps_marker_counterexample :
    (TriggerCorePostExtract envWeb fsClass "a[b]c" "/src").err = none ∧
    common.FileExists (TriggerCorePostExtract envWeb fsClass "a[b]c" "/src").fs
      (processSpecificPath envWeb "a[b]c") = true ∧
    common.FileExists (TriggerCorePostExtract envWeb fsClass "a[b]c" "/src").fs
      (missingPath envWeb "a[b]c") = true ∧
    ¬ ((common.FileExists (TriggerCorePostExtract envWeb fsClass "a[b]c" "/src").fs
          (processSpecificPath envWeb "a[b]c") = true ∧
        common.FileExists (TriggerCorePostExtract envWeb fsClass "a[b]c" "/src").fs
          (missingPath envWeb "a[b]c") = false) ∨
      (common.FileExists (TriggerCorePostExtract envWeb fsClass "a[b]c" "/src").fs
          (processSpecificPath envWeb "a[b]c") = false ∧
        common.FileExists (TriggerCorePostExtract envWeb fsClass "a[b]c" "/src").fs
          (missingPath envWeb "a[b]c") = true)) := by
  decide

/-- Claim C1, amended: for every app whose canonical path holds none of the
pattern characters `*`, `?`, `[` and backslash, and every source root, source
image and filesystem, when `TriggerCorePostExtract` returns no error, exactly
one of the attempt-scoped document `<canonical>.<DOKKU_PID>` and the
missing-marker `<canonical>.<DOKKU_PID>.missing` exists afterwards. -/
theorem TriggerCorePostExtract_mutual_exclusion (env : Env) (fs : FS)
    (appName sourceWorkDir : String)
    (hmeta : hasMeta (common.GetAppJSONPath env appName) = false)
    (hok : (TriggerCorePostExtract env fs appName sourceWorkDir).err = none) :
    (common.FileExists (TriggerCorePostExtract env fs appName sourceWorkDir).fs
        (processSpecificPath env appName) = true ∧
      common.FileExists (TriggerCorePostExtract env fs appName sourceWorkDir).fs
        (missingPath env appName) = false) ∨
    (common.FileExists (TriggerCorePostExtract env fs appName sourceWorkDir).fs
        (processSpecificPath env appName) = false ∧
      common.FileExists (TriggerCorePostExtract env fs appName sourceWorkDir).fs
        (missingPath env appName) = true) := by
  simp only [fileExists_iff, fileExists_false_iff]
  rw [TriggerCorePostExtract_eq] at hok ⊢
  cases hg : filepath.Glob fs (common.GetAppJSONPath env appName ++ ".*") with
  | error e => rw [hg] at hok; simp at hok
  | ok files =>
    rw [hg] at hok
    simp only at hok ⊢
    by_cases hrm : (removeFiles env files fs).err = none
    · rw [if_pos hrm] at hok ⊢
      have e1 : processSpecificPath env appName =
          String.mk ((common.GetAppJSONPath env appName).toList ++ '.' :: env.DOKKU_PID.toList) :=
        String.ext (toList_processSpecificPath env appName)
      have e2 : missingPath env appName =
          String.mk ((common.GetAppJSONPath env appName).toList ++
            '.' :: (env.DOKKU_PID.toList ++ ".missing".toList)) :=
        String.ext (toList_missingPath env appName)
      apply stageDocument_exclusive env _ appName sourceWorkDir _ _ hok
      · rw [e1]
        exact cleanup_staged env fs _ _ files hmeta hg hrm
      · rw [e2]
        exact cleanup_staged env fs _ _ files hmeta hg hrm
    · rw [if_neg hrm] at hok
      exact absurd hok hrm

/-- Claim C1, amended, at a concrete input: staging from a source tree that
holds the configured document succeeds, over the leftovers of an earlier
attempt. -/
theorem TriggerCorePostExtract_mutual_exclusion_witness :
    hasMeta (common.GetAppJSONPath envWeb "web") = false ∧
    (TriggerCorePostExtract envWeb fsSource "web" "/src").err = none ∧
    ((common.FileExists (TriggerCorePostExtract envWeb fsSource "web" "/src").fs
        (processSpecificPath envWeb "web") = true ∧
      common.FileExists (TriggerCorePostExtract envWeb fsSource "web" "/src").fs
        (missingPath envWeb "web") = false) ∨
    (common.FileExists (TriggerCorePostExtract envWeb fsSource "web" "/src").fs
        (processSpecificPath envWeb "web") = false ∧
      common.FileExists (TriggerCorePostExtract envWeb fsSource "web" "/src").fs
        (missingPath envWeb "web") = true)) :=
  ⟨by decide, by decide,
    TriggerCorePostExtract_mutual_exclusion envWeb fsSource "web" "/src" (by decide) (by decide)⟩

/-! ### C2: idempotent promotion -/

/-- Claim C2 fails as stated: with the attempt-scoped document and the
missing-marker both present, the first Commit succeeds and promotes the
document, and the second Commit removes the promoted document again. -/
theorem commit_twice_counterexample :
    (TriggerCorePostDeploy envWeb fsBoth "web").err = none ∧
    (TriggerCorePostDeploy envWeb fsBoth "web").fs.read "/data/web/app.json" = some "new" ∧
    (TriggerCorePostDeploy envWeb (TriggerCorePostDeploy envWeb fsBoth "web").fs "web").fs.read
      "/data/web/app.json" = none ∧
    ¬ ((TriggerCorePostDeploy envWeb (TriggerCorePostDeploy envWeb fsBoth "web").fs "web").fs =
        (TriggerCorePostDeploy envWeb fsBoth "web").fs ∧
       (TriggerCorePostDeploy envWeb (TriggerCorePostDeploy envWeb fsBoth "web").fs "web").err = none) := by
  decide

/-- Claim C2, amended: when the attempt-scoped document and the missing-marker
are not both present and the first `TriggerCorePostDeploy` returns no error, a
second one right after it leaves the filesystem as the first left it and
returns no error. -/
theorem TriggerCorePostDeploy_idempotent (env : Env) (fs : FS) (appName : String)
    (hok : (TriggerCorePostDeploy env fs appName).err = none)
    (hex : ¬ (fs.read (processSpecificPath env appName) ≠ none ∧
      fs.read (missingPath env appName) ≠ none)) :
    TriggerCorePostDeploy env (TriggerCorePostDeploy env fs appName).fs appName =
      ⟨(TriggerCorePostDeploy env fs appName).fs, none⟩ := by
  have hpost := commit_outcome env fs appName hok
  obtain ⟨h1, h2, h3⟩ := hpost
  have key : ∀ fs', fs'.read (processSpecificPath env appName) = none →
      fs'.read (missingPath env appName) = none →
      TriggerCorePostDeploy env fs' appName = ⟨fs', none⟩ := by
    intro fs' ha hb
    rw [TriggerCorePostDeploy_eq]
    simp [(fileExists_false_iff _ _).mpr ha, (fileExists_false_iff _ _).mpr hb]
  cases hdoc : fs.read (processSpecificPath env appName) with
  | some c =>
    have hm : fs.read (missingPath env appName) = none := by
      by_contra hne
      exact hex ⟨by rw [hdoc]; simp, hne⟩
    apply key _ (h1 c hdoc).2
    -- the marker is still absent after the rename
    rw [TriggerCorePostDeploy_eq]
    have hfe : common.FileExists fs (processSpecificPath env appName) = true := by
      rw [fileExists_iff, hdoc]; simp
    rw [TriggerCorePostDeploy_eq, if_pos hfe] at hok
    rw [if_pos hfe]
    cases hr : os.Rename env fs (processSpecificPath env appName) (common.GetAppJSONPath env appName) with
    | error e => rw [hr] at hok; simp at hok
    | ok fs1 =>
      obtain ⟨c', _, rfl⟩ := os_Rename_ok env fs fs1 _ _ hr (processSpecificPath_ne env appName)
      simp [FS.read_write, FS.read_remove, missingPath_ne, missingPath_ne_processSpecificPath, hm]
  | none =>
    cases hm : fs.read (missingPath env appName) with
    | none =>
      rw [h3 hdoc hm]
      exact key fs hdoc hm
    | some m =>
      have hm' : fs.read (missingPath env appName) ≠ none := by rw [hm]; simp
      apply key _ _ (h2 hdoc hm').1
      -- the document is still absent after the removals
      rw [TriggerCorePostDeploy_eq]
      have hfe : common.FileExists fs (processSpecificPath env appName) = false := by
        rw [fileExists_false_iff, hdoc]
      have hfe2 : common.FileExists fs (missingPath env appName) = true := by
        rw [fileExists_iff]; exact hm'
      rw [TriggerCorePostDeploy_eq] at hok
      simp only [hfe, hfe2, if_true, Bool.false_eq_true, if_false] at hok ⊢
      cases hr : os.Remove env fs (missingPath env appName) with
      | error e => rw [hr] at hok; simp at hok
      | ok fs1 =>
        have e1 := os_Remove_ok env fs fs1 _ hr
        subst e1
        rw [hr] at hok
        simp only at hok ⊢
        by_cases hc : common.FileExists (fs.remove (missingPath env appName)) (common.GetAppJSONPath env appName) = true
        · rw [if_pos hc] at hok ⊢
          cases hr2 : os.Remove env (fs.remove (missingPath env appName)) (common.GetAppJSONPath env appName) with
          | error e => rw [hr2] at hok; simp at hok
          | ok fs2 =>
            have e2 := os_Remove_ok env _ fs2 _ hr2
            subst e2
            simp [FS.read_remove, hdoc]
        · rw [if_neg hc]
          simp [FS.read_remove, hdoc]

/-- Claim C2, amended, at a concrete input: a staged document beside an older
canonical one. -/
theorem TriggerCorePostDeploy_idempotent_witness :
    (TriggerCorePostDeploy envWeb fsStaged "web").err = none ∧
    ¬ (fsStaged.read (processSpecificPath envWeb "web") ≠ none ∧
      fsStaged.read (missingPath envWeb "web") ≠ none) ∧
    TriggerCorePostDeploy envWeb (TriggerCorePostDeploy envWeb fsStaged "web").fs "web" =
      ⟨(TriggerCorePostDeploy envWeb fsStaged "web").fs, none⟩ :=
  ⟨by decide, by decide,
    TriggerCorePostDeploy_idempotent envWeb fsStaged "web" (by decide) (by decide)⟩

/-! ### C3: at-most-once terminal script -/

/-- Claim C3, at-most-once terminal script: over every sequence of release
invocations for one app, other processes leaving the `heroku.postdeploy`
property of the app alone, the `heroku.postdeploy` script is run at most once;
and when it was run the execution marker is set, whatever became of the
script, since the marker is written before the script is invoked. -/
theorem TriggerPostReleaseBuilder_at_most_once (appName : String) (invs : List Invocation)
    (d : Deploy)
    (hext : ∀ inv ∈ invs, ∀ props : Props,
      inv.before props "app-json" appName "heroku.postdeploy" =
        props "app-json" appName "heroku.postdeploy") :
    postdeployRuns appName (runReleases appName invs d).scripts ≤
      postdeployRuns appName d.scripts + 1 ∧
    (postdeployRuns appName d.scripts <
        postdeployRuns appName (runReleases appName invs d).scripts →
      common.PropertyGet (runReleases appName invs d).props
        "app-json" appName "heroku.postdeploy" = "executed") := by
  induction invs generalizing d with
  | nil => exact ⟨Nat.le_succ _, fun h => absurd h (Nat.lt_irrefl _)⟩
  | cons inv rest ih =>
    have hrest : ∀ i ∈ rest, ∀ props : Props,
        i.before props "app-json" appName "heroku.postdeploy" =
          props "app-json" appName "heroku.postdeploy" := fun i hi => hext i (by simp [hi])
    have hstep := (release_step inv.env ⟨inv.before d.props, d.scripts⟩ inv.builderType appName
      inv.image).2
    have hih := ih (TriggerPostReleaseBuilder inv.env ⟨inv.before d.props, d.scripts⟩
      inv.builderType appName inv.image).state hrest
    unfold runReleases
    rcases hstep with h | ⟨h, hm⟩
    · simp only at h
      rw [h] at hih
      exact hih
    · simp only at h
      have hmk := runReleases_marked appName rest _ hrest hm
      refine ⟨by rw [hmk.1, h], fun _ => hmk.2⟩

/-- Claim C3 at a concrete input: of three release invocations the first runs
the script, the others do not. -/
theorem TriggerPostReleaseBuilder_at_most_once_witness :
    (∀ inv ∈ threeReleases, ∀ props : Props,
      inv.before props "app-json" "web" "heroku.postdeploy" =
        props "app-json" "web" "heroku.postdeploy") ∧
    postdeployRuns "web" (runReleases "web" threeReleases deployFresh).scripts = 1 ∧
    postdeployRuns "web" (runReleases "web" threeReleases deployFresh).scripts ≤
      postdeployRuns "web" deployFresh.scripts + 1 ∧
    (postdeployRuns "web" deployFresh.scripts <
        postdeployRuns "web" (runReleases "web" threeReleases deployFresh).scripts →
      common.PropertyGet (runReleases "web" threeReleases deployFresh).props
        "app-json" "web" "heroku.postdeploy" = "executed") :=
  have hext : ∀ inv ∈ threeReleases, ∀ props : Props,
      inv.before props "app-json" "web" "heroku.postdeploy" =
        props "app-json" "web" "heroku.postdeploy" := by
    intro inv hinv props
    simp only [threeReleases, List.mem_cons, List.mem_singleton, List.not_mem_nil, or_false] at hinv
    rcases hinv with rfl | rfl | rfl
    · rfl
    · simp
    · rfl
  ⟨hext, by decide, TriggerPostReleaseBuilder_at_most_once "web" threeReleases deployFresh hext⟩

/-! ### C4: Stage never promotes -/

/-- Claim C4 fails as stated: with the data directory of the app as source root
and a configured path other than `app.json` that names no file, Stage succeeds
and removes the canonical document. -/
theorem stage_changes_canonical_counterexample :
    fsCanonical.read (common.GetAppJSONPath envWeb "web") = some "old" ∧
    (TriggerCorePostExtract envWeb fsCanonical "web" "/data/web").err = none ∧
    (TriggerCorePostExtract envWeb fsCanonical "web" "/data/web").fs.read
      (common.GetAppJSONPath envWeb "web") = none ∧
    ¬ ((TriggerCorePostExtract envWeb fsCanonical "web" "/data/web").fs.read
      (common.GetAppJSONPath envWeb "web") = fsCanonical.read (common.GetAppJSONPath envWeb "web")) := by
  decide

/-- Claim C4, amended: unless the source image is empty, the configured path is
not `app.json` and `<source-root>/app.json` is the canonical path itself, the
canonical document has the same existence and content after
`TriggerCorePostExtract` as before, whether the trigger succeeds or fails. -/
theorem TriggerCorePostExtract_canonical_unchanged (env : Env) (fs : FS)
    (appName sourceWorkDir : String)
    (hsrc : env.sourceImage appName = "" → configuredPath env appName ≠ "app.json" →
      path.Join [sourceWorkDir, "app.json"] ≠ common.GetAppJSONPath env appName) :
    (TriggerCorePostExtract env fs appName sourceWorkDir).fs.read (common.GetAppJSONPath env appName) =
      fs.read (common.GetAppJSONPath env appName) := by
  rw [TriggerCorePostExtract_eq]
  cases hg : filepath.Glob fs (common.GetAppJSONPath env appName ++ ".*") with
  | error e => rfl
  | ok files =>
    have hglob : common.GetAppJSONPath env appName ∉ files :=
      Glob_ne_canonical fs _ files hg
    simp only
    split_ifs
    · rw [stageDocument_frame env _ appName sourceWorkDir _
        (fun h => processSpecificPath_ne env appName h.symm)
        (fun h => missingPath_ne env appName h.symm) (fun hi hc h => hsrc hi hc h.symm)]
      exact removeFiles_frame env _ fs _ hglob
    · exact removeFiles_frame env _ fs _ hglob

/-- Claim C4, amended, at a concrete input: staging from `/src` leaves the
canonical document of `web` alone. -/
theorem TriggerCorePostExtract_canonical_unchanged_witness :
    (envWeb.sourceImage "web" = "" → configuredPath envWeb "web" ≠ "app.json" →
      path.Join ["/src", "app.json"] ≠ common.GetAppJSONPath envWeb "web") ∧
    (TriggerCorePostExtract envWeb fsSource "web" "/src").err = none ∧
    (TriggerCorePostExtract envWeb fsSource "web" "/src").fs.read (common.GetAppJSONPath envWeb "web") =
      fsSource.read (common.GetAppJSONPath envWeb "web") :=
  ⟨by decide, by decide,
    TriggerCorePostExtract_canonical_unchanged envWeb fsSource "web" "/src" (by decide)⟩

/-! ### C5: Commit postcondition -/

/-- Claim C5, Commit postcondition: when `TriggerCorePostDeploy` returns no
error, (1) if the attempt-scoped document existed, the canonical document has
its content afterwards and the attempt-scoped document is gone; (2) otherwise,
if the missing-marker existed, afterwards neither the marker nor the canonical
document exists; (3) otherwise the filesystem is unchanged. -/
theorem TriggerCorePostDeploy_postcondition (env : Env) (fs : FS) (appName : String)
    (hok : (TriggerCorePostDeploy env fs appName).err = none) :
    (∀ c, fs.read (processSpecificPath env appName) = some c →
      (TriggerCorePostDeploy env fs appName).fs.read (common.GetAppJSONPath env appName) = some c ∧
      (TriggerCorePostDeploy env fs appName).fs.read (processSpecificPath env appName) = none) ∧
    (fs.read (processSpecificPath env appName) = none →
      fs.read (missingPath env appName) ≠ none →
      (TriggerCorePostDeploy env fs appName).fs.read (missingPath env appName) = none ∧
      (TriggerCorePostDeploy env fs appName).fs.read (common.GetAppJSONPath env appName) = none) ∧
    (fs.read (processSpecificPath env appName) = none →
      fs.read (missingPath env appName) = none →
      (TriggerCorePostDeploy env fs appName).fs = fs) :=
  commit_outcome env fs appName hok

/-- Claim C5 at a concrete input: a staged document is promoted over an older
canonical one. -/
theorem TriggerCorePostDeploy_postcondition_witness :
    (TriggerCorePostDeploy envWeb fsStaged "web").err = none ∧
    (TriggerCorePostDeploy envWeb fsStaged "web").fs.read "/data/web/app.json" = some "new" ∧
    ((∀ c, fsStaged.read (processSpecificPath envWeb "web") = some c →
      (TriggerCorePostDeploy envWeb fsStaged "web").fs.read (common.GetAppJSONPath envWeb "web") = some c ∧
      (TriggerCorePostDeploy envWeb fsStaged "web").fs.read (processSpecificPath envWeb "web") = none) ∧
    (fsStaged.read (processSpecificPath envWeb "web") = none →
      fsStaged.read (missingPath envWeb "web") ≠ none →
      (TriggerCorePostDeploy envWeb fsStaged "web").fs.read (missingPath envWeb "web") = none ∧
      (TriggerCorePostDeploy envWeb fsStaged "web").fs.read (common.GetAppJSONPath envWeb "web") = none) ∧
    (fsStaged.read (processSpecificPath envWeb "web") = none →
      fsStaged.read (missingPath envWeb "web") = none →
      (TriggerCorePostDeploy envWeb fsStaged "web").fs = fsStaged)) :=
  ⟨by decide, by decide, TriggerCorePostDeploy_postcondition envWeb fsStaged "web" (by decide)⟩

/-! ### C6: default fallback -/

/-- Claim C6, default fallback: `TriggerAppJSONGetContent` returns no error and
prints exactly `{}` (1) when the app has no document, and (2) when the document
is read and every character of it is white space, the empty document included;
and (3) every call that returns no error prints a text that is not empty and
is `{}` or the content of the document without its leading and trailing white
space: the content is white space, the printed text, white space, and the
printed text neither starts nor ends with white space. -/
theorem TriggerAppJSONGetContent_default (env : Env) (fs : FS) (appName : String) :
    (env.HasAppJSON fs appName = false →
      TriggerAppJSONGetContent env fs appName = ⟨"\x7b\x7d", none⟩) ∧
    (∀ b, env.HasAppJSON fs appName = true →
      os.ReadFile env fs (env.GetProcessSpecificAppJSONPath fs appName) = .ok b →
      (∀ c ∈ b.toList, unicode.IsSpace c = true) →
      TriggerAppJSONGetContent env fs appName = ⟨"\x7b\x7d", none⟩) ∧
    ((TriggerAppJSONGetContent env fs appName).err = none →
      (TriggerAppJSONGetContent env fs appName).stdout ≠ "" ∧
      ((TriggerAppJSONGetContent env fs appName).stdout = "\x7b\x7d" ∨
        ∃ (b : String) (pre post : List Char),
          fs.read (env.GetProcessSpecificAppJSONPath fs appName) = some b ∧
          b.toList = pre ++ (TriggerAppJSONGetContent env fs appName).stdout.toList ++ post ∧
          (∀ c ∈ pre, unicode.IsSpace c = true) ∧
          (∀ c ∈ post, unicode.IsSpace c = true) ∧
          (∀ c, (TriggerAppJSONGetContent env fs appName).stdout.toList.head? = some c →
            unicode.IsSpace c = false) ∧
          (∀ c, (TriggerAppJSONGetContent env fs appName).stdout.toList.getLast? = some c →
            unicode.IsSpace c = false))) := by
  refine ⟨?_, ?_, ?_⟩
  · intro h
    simp [TriggerAppJSONGetContent, h]
  · intro b h hr hb
    simp [TriggerAppJSONGetContent, h, hr, TrimSpace_blank b hb]
  · intro hok
    unfold TriggerAppJSONGetContent at hok ⊢
    cases hh : env.HasAppJSON fs appName with
    | false => simp
    | true =>
      simp only [hh, Bool.not_true, Bool.false_eq_true, if_false] at hok ⊢
      cases hr : os.ReadFile env fs (env.GetProcessSpecificAppJSONPath fs appName) with
      | error e => rw [hr] at hok; simp at hok
      | ok b =>
        simp only []
        by_cases ht : strings.TrimSpace b = ""
        · simp [ht]
        · rw [if_neg ht]
          refine ⟨ht, Or.inr ?_⟩
          obtain ⟨pre, post, hl, hpre, hpost⟩ := trim_layout unicode.IsSpace b.toList
          exact ⟨b, pre, post, os_ReadFile_ok env fs _ b hr, hl, hpre, hpost,
            fun c hc => trim_head unicode.IsSpace b.toList c hc,
            fun c hc => trim_last unicode.IsSpace b.toList c hc⟩

/-- Claim C6 at concrete inputs: the document ` \n\t ` of white space only is
printed as `{}`, a document with white space around `[1, 2]` as `[1, 2]`, and
the document `old` as it is. -/
theorem TriggerAppJSONGetContent_default_witness :
    envWeb.HasAppJSON fsBlank "web" = true ∧
    os.ReadFile envWeb fsBlank (envWeb.GetProcessSpecificAppJSONPath fsBlank "web") = .ok " \n\t " ∧
    (∀ c ∈ " \n\t ".toList, unicode.IsSpace c = true) ∧
    TriggerAppJSONGetContent envWeb fsBlank "web" = ⟨"\x7b\x7d", none⟩ ∧
    TriggerAppJSONGetContent envWeb fsPadded "web" = ⟨"[1, 2]", none⟩ ∧
    TriggerAppJSONGetContent envWeb fsSource "web" = ⟨"old", none⟩ :=
  ⟨by decide, by decide, by decide,
    (TriggerAppJSONGetContent_default envWeb fsBlank "web").2.1 " \n\t " (by decide) (by decide)
      (by decide),
    by decide, by decide⟩

/-! ### C7: non-default path preservation -/

/-- Claim C7, non-default path preservation: with an empty source image and a
configured path other than `app.json`, when no file exists at
`<source-root>/<build-dir>/<configured-path>` and `TriggerCorePostExtract`
returns no error, afterwards no file exists at `<source-root>/app.json` and
the missing-marker of the attempt exists. -/
theorem TriggerCorePostExtract_non_default (env : Env) (fs : FS) (appName sourceWorkDir : String)
    (himg : env.sourceImage appName = "")
    (hcfg : configuredPath env appName ≠ "app.json")
    (habs : common.FileExists fs (path.Join [sourceWorkDir, env.buildDir appName,
      configuredPath env appName]) = false)
    (hok : (TriggerCorePostExtract env fs appName sourceWorkDir).err = none) :
    common.FileExists (TriggerCorePostExtract env fs appName sourceWorkDir).fs
      (path.Join [sourceWorkDir, "app.json"]) = false ∧
    common.FileExists (TriggerCorePostExtract env fs appName sourceWorkDir).fs
      (missingPath env appName) = true := by
  simp only [fileExists_iff, fileExists_false_iff] at habs ⊢
  rw [TriggerCorePostExtract_eq] at hok ⊢
  cases hg : filepath.Glob fs (common.GetAppJSONPath env appName ++ ".*") with
  | error e => rw [hg] at hok; simp at hok
  | ok files =>
    rw [hg] at hok
    simp only at hok ⊢
    by_cases hrm : (removeFiles env files fs).err = none
    · rw [if_pos hrm] at hok ⊢
      exact stageDocument_non_default env _ appName sourceWorkDir himg hcfg
        (removeFiles_absent env _ fs _ habs) hok
    · rw [if_neg hrm] at hok
      exact absurd hok hrm

/-- Claim C7 at a concrete input: the default document of the source tree is
removed when the configured path `config/app.json` names no file. -/
theorem TriggerCorePostExtract_non_default_witness :
    envWeb.sourceImage "web" = "" ∧ configuredPath envWeb "web" ≠ "app.json" ∧
    common.FileExists fsDefaultOnly (path.Join ["/src", envWeb.buildDir "web",
      configuredPath envWeb "web"]) = false ∧
    (TriggerCorePostExtract envWeb fsDefaultOnly "web" "/src").err = none ∧
    common.FileExists (TriggerCorePostExtract envWeb fsDefaultOnly "web" "/src").fs
      (path.Join ["/src", "app.json"]) = false ∧
    common.FileExists (TriggerCorePostExtract envWeb fsDefaultOnly "web" "/src").fs
      (missingPath envWeb "web") = true :=
  ⟨by decide, by decide, by decide, by decide,
    TriggerCorePostExtract_non_default envWeb fsDefaultOnly "web" "/src" (by decide) (by decide)
      (by decide) (by decide)⟩

/-! ### C8: Stage write confinement -/

/-- Claim C8 fails as stated: staging a document from the configured path
`config/app.json` also writes it to `<source-root>/app.json`, outside the
directory of the canonical document. -/
theorem stage_writes_source_tree_counterexample :
    inDataDir envWeb "web" "/src/app.json" = false ∧
    fsSource.read "/src/app.json" = none ∧
    (TriggerCorePostExtract envWeb fsSource "web" "/src").err = none ∧
    (TriggerCorePostExtract envWeb fsSource "web" "/src").fs.read "/src/app.json" = some "new" ∧
    ¬ (inDataDir envWeb "web" "/src/app.json" = false →
      (TriggerCorePostExtract envWeb fsSource "web" "/src").fs.read "/src/app.json" =
        fsSource.read "/src/app.json") := by
  decide

/-- Claim C8, amended: for a canonical path with none of the pattern characters
`*`, `?`, `[` and backslash, every path outside the directory of the canonical
document has the same existence and content after `TriggerCorePostExtract` as
before, whether the trigger succeeds or fails, but for `<source-root>/app.json`
when the source image is empty and the configured path is not `app.json`. -/
theorem TriggerCorePostExtract_confined (env : Env) (fs : FS) (appName sourceWorkDir p : String)
    (hmeta : hasMeta (common.GetAppJSONPath env appName) = false)
    (hout : inDataDir env appName p = false)
    (hdef : env.sourceImage appName = "" → configuredPath env appName ≠ "app.json" →
      p ≠ path.Join [sourceWorkDir, "app.json"]) :
    (TriggerCorePostExtract env fs appName sourceWorkDir).fs.read p = fs.read p := by
  obtain ⟨q, dir, hc, hq, hdir, hbase, hchars, hjoin⟩ :=
    join_layout (env.GetAppDataDirectory "app-json" appName)
  have hc' : (common.GetAppJSONPath env appName).toList = q ++ "app.json".toList := hc
  have hdirOf : dirOf (common.GetAppJSONPath env appName).toList = q := by
    rw [hc', dirOf_append q _ hq (by decide)]
  have hstart : ∀ x : String, q <+: x.toList → p ≠ x := by
    intro x hx e
    subst e
    unfold inDataDir at hout
    rw [hdirOf] at hout
    have := List.isPrefixOf_iff_prefix.mpr hx
    rw [this] at hout
    exact Bool.noConfusion hout
  have hpre : ∀ x : String, (common.GetAppJSONPath env appName).toList <+: x.toList → p ≠ x := by
    intro x hx
    apply hstart
    rw [hc'] at hx
    exact (List.prefix_append q _).trans hx
  have h1 : p ≠ processSpecificPath env appName :=
    hpre _ ⟨_, (toList_processSpecificPath env appName).symm⟩
  have h2 : p ≠ missingPath env appName :=
    hpre _ ⟨_, (toList_missingPath env appName).symm⟩
  rw [TriggerCorePostExtract_eq]
  cases hg : filepath.Glob fs (common.GetAppJSONPath env appName ++ ".*") with
  | error e => rfl
  | ok files =>
    have hglob : p ∉ files := by
      intro h
      have hg' := hg
      unfold common.GetAppJSONPath at hg' hmeta
      rw [Glob_plain fs _ q dir hc hq hdir hchars hmeta] at hg'
      simp only [Except.ok.injEq] at hg'
      rw [← hg', List.mem_map] at h
      obtain ⟨n, hn, rfl⟩ := h
      obtain ⟨n1, n2, n3, n4⟩ := stagedName_ordinary n (List.mem_filter.mp hn).2
      exact hstart _ ⟨n.toList, (hjoin n.toList n1 n2 n3 n4).symm⟩ rfl
    simp only
    split_ifs
    · rw [stageDocument_frame env _ appName sourceWorkDir _ h1 h2 hdef]
      exact removeFiles_frame env _ fs _ hglob
    · exact removeFiles_frame env _ fs _ hglob

/-- Claim C8, amended, at a concrete input: the configured document of the
source tree is left alone. -/
theorem TriggerCorePostExtract_confined_witness :
    hasMeta (common.GetAppJSONPath envWeb "web") = false ∧
    inDataDir envWeb "web" "/src/config/app.json" = false ∧
    (envWeb.sourceImage "web" = "" → configuredPath envWeb "web" ≠ "app.json" →
      "/src/config/app.json" ≠ path.Join ["/src", "app.json"]) ∧
    (TriggerCorePostExtract envWeb fsSource "web" "/src").fs.read "/src/config/app.json" =
      fsSource.read "/src/config/app.json" :=
  ⟨by decide, by decide, by decide,
    TriggerCorePostExtract_confined envWeb fsSource "web" "/src" "/src/config/app.json"
      (by decide) (by decide) (by decide)⟩

/-! ### C9: rename mirrors state -/

/-- Claim C9 fails as stated: renaming an app to its own name succeeds and
leaves none of its keys. -/
theorem rename_same_name_counterexample :
    (TriggerPostAppRenameSetup envWeb propsWeb "web" "web").err = none ∧
    propsWeb "app-json" "web" "k" = some "v" ∧
    (TriggerPostAppRenameSetup envWeb propsWeb "web" "web").props "app-json" "web" "k" = none ∧
    ¬ ((TriggerPostAppRenameSetup envWeb propsWeb "web" "web").props "app-json" "web" "k" =
      some "v") := by
  decide

/-- Claim C9, amended: for two different app names, when
`TriggerPostAppRenameSetup` returns no error, the `app-json` properties of the
new name hold every key and value the old name had, and the old name has no
property left. -/
theorem TriggerPostAppRenameSetup_mirrors (env : Env) (props : Props)
    (oldAppName newAppName : String) (hne : oldAppName ≠ newAppName)
    (hok : (TriggerPostAppRenameSetup env props oldAppName newAppName).err = none) :
    (∀ k v, props "app-json" oldAppName k = some v →
      (TriggerPostAppRenameSetup env props oldAppName newAppName).props
        "app-json" newAppName k = some v) ∧
    (∀ k, (TriggerPostAppRenameSetup env props oldAppName newAppName).props
      "app-json" oldAppName k = none) := by
  unfold TriggerPostAppRenameSetup at hok ⊢
  cases hc : common.PropertyClone env props "app-json" oldAppName newAppName with
  | error e => rw [hc] at hok; simp at hok
  | ok props1 =>
    rw [hc] at hok
    simp only at hok ⊢
    cases hd : common.PropertyDestroy env props1 "app-json" oldAppName with
    | error e => rw [hd] at hok; simp at hok
    | ok props2 =>
      simp only
      rw [propertyDestroy_ok env props1 props2 _ _ hd, propertyClone_ok env props props1 _ _ _ hc]
      refine ⟨?_, ?_⟩
      · intro k v hv
        simp [hv, hne.symm]
      · intro k
        simp

/-- Claim C9, amended, at a concrete input: `web` renamed to `api`. -/
theorem TriggerPostAppRenameSetup_mirrors_witness :
    "web" ≠ "api" ∧
    (TriggerPostAppRenameSetup envWeb propsWeb "web" "api").err = none ∧
    (∀ k v, propsWeb "app-json" "web" k = some v →
      (TriggerPostAppRenameSetup envWeb propsWeb "web" "api").props "app-json" "api" k = some v) ∧
    (∀ k, (TriggerPostAppRenameSetup envWeb propsWeb "web" "api").props "app-json" "web" k = none) :=
  ⟨by decide, by decide,
    TriggerPostAppRenameSetup_mirrors envWeb propsWeb "web" "api" (by decide) (by decide)⟩

/-! ### C10: deploy parallelism -/

/-- Claim C10, deploy parallelism: for a parsed document, whose formation map
holds a process type once, `TriggerAppJSONProcessDeployParallelism` prints the
`MaxParallel` of the entry of the process type when that entry exists and its
`MaxParallel` is set and greater than 0, and 1 in every other case; the value
is at least 1 and the same for every order in which the map is visited. -/
theorem TriggerAppJSONProcessDeployParallelism_value (env : Env) (appName processType : String)
    (appJSON : AppJSON) (hget : env.GetAppJSON appName = .ok appJSON)
    (hkeys : (appJSON.Formation.map Prod.fst).Nodup) :
    TriggerAppJSONProcessDeployParallelism env appName processType =
      ⟨toString (deployParallelism appJSON.Formation processType) ++ "\n", none⟩ ∧
    (∀ f m, (processType, f) ∈ appJSON.Formation → f.MaxParallel = some m → 0 < m →
      deployParallelism appJSON.Formation processType = m) ∧
    ((¬ ∃ f m, (processType, f) ∈ appJSON.Formation ∧ f.MaxParallel = some m ∧ 0 < m) →
      deployParallelism appJSON.Formation processType = 1) ∧
    1 ≤ deployParallelism appJSON.Formation processType ∧
    (∀ order : List (String × Formation), order.Perm appJSON.Formation →
      deployParallelism order processType = deployParallelism appJSON.Formation processType) := by
  have hspec := deployParallelism_spec appJSON.Formation processType hkeys
  have hcase : (∃ f m, (processType, f) ∈ appJSON.Formation ∧ f.MaxParallel = some m ∧ 0 < m) ∨
      ¬ ∃ f m, (processType, f) ∈ appJSON.Formation ∧ f.MaxParallel = some m ∧ 0 < m :=
    Classical.em _
  refine ⟨?_, hspec.1, hspec.2, ?_, ?_⟩
  · simp [TriggerAppJSONProcessDeployParallelism, hget]
  · rcases hcase with ⟨f, m, hf, hm, hpos⟩ | hno
    · rw [hspec.1 f m hf hm hpos]
      omega
    · rw [hspec.2 hno]
  · intro order hperm
    have hkeys2 : (order.map Prod.fst).Nodup := (hperm.map Prod.fst).nodup_iff.mpr hkeys
    have hspec2 := deployParallelism_spec order processType hkeys2
    rcases hcase with ⟨f, m, hf, hm, hpos⟩ | hno
    · rw [hspec.1 f m hf hm hpos, hspec2.1 f m (hperm.mem_iff.mpr hf) hm hpos]
    · rw [hspec.2 hno]
      apply hspec2.2
      rintro ⟨f, m, hf, hm, hpos⟩
      exact hno ⟨f, m, hperm.mem_iff.mp hf, hm, hpos⟩

/-- Claim C10 at a concrete input: 4 for `web`, 1 for `worker` whose
`MaxParallel` is 0. -/
theorem TriggerAppJSONProcessDeployParallelism_value_witness :
    envFormation.GetAppJSON "web" = .ok appJSONFormation ∧
    (appJSONFormation.Formation.map Prod.fst).Nodup ∧
    TriggerAppJSONProcessDeployParallelism envFormation "web" "web" = ⟨"4\n", none⟩ ∧
    TriggerAppJSONProcessDeployParallelism envFormation "web" "worker" = ⟨"1\n", none⟩ ∧
    (TriggerAppJSONProcessDeployParallelism envFormation "web" "web" =
      ⟨toString (deployParallelism appJSONFormation.Formation "web") ++ "\n", none⟩ ∧
    (∀ f m, ("web", f) ∈ appJSONFormation.Formation → f.MaxParallel = some m → 0 < m →
      deployParallelism appJSONFormation.Formation "web" = m) ∧
    ((¬ ∃ f m, ("web", f) ∈ appJSONFormation.Formation ∧ f.MaxParallel = some m ∧ 0 < m) →
      deployParallelism appJSONFormation.Formation "web" = 1) ∧
    1 ≤ deployParallelism appJSONFormation.Formation "web" ∧
    (∀ order : List (String × Formation), order.Perm appJSONFormation.Formation →
      deployParallelism order "web" = deployParallelism appJSONFormation.Formation "web")) :=
  ⟨rfl, by decide, by decide, by decide,
    TriggerAppJSONProcessDeployParallelism_value envFormation "web" "web" appJSONFormation rfl
      (by decide)⟩

end appjson
